import Mathlib

/-!
Shallow embedding of `a_kvnl.py`, a typed key/value line codec.

Python values that can flow through the codec are modelled by `PyVal`;
machine floats are modelled by their shortest-decimal representation
(`PyFloat`), which is exactly the data observable through `str`/`float`
round trips (finite values); `datetime` objects are modelled by `Datetime`
with minute-resolution UTC offsets, matching the `±HH:MM` offsets that
`isoformat`/`fromisoformat` exchange.  Bytes are `List Nat`, text is
`List Char`.  Exceptions are the `PyErr` type and fallible operations
return `Except PyErr _`.
-/

/-- Python exceptions that the codec can raise or propagate. -/
inductive PyErr where
  | DecodingError (annot : List Char)
  | EncodingError
  | ValueError
  | UnicodeError
  | AttributeError
  | TypeError
deriving DecidableEq, Repr

/-- A finite Python float, identified by its shortest-decimal form:
sign, significand digits (most significant first, no leading or trailing
zero when nonzero; `[]` encodes zero) and decimal exponent `exp`, so that
the value is `±d₁.d₂…d_k × 10 ^ exp`. -/
structure PyFloat where
  neg : Bool
  digits : List Nat
  exp : Int
deriving DecidableEq, Repr

/-- A Python `datetime`: date and time fields plus an optional fixed UTC
offset in minutes (`timezone(timedelta(minutes=o))`). -/
structure Datetime where
  year : Nat
  month : Nat
  day : Nat
  hour : Nat
  minute : Nat
  second : Nat
  microsecond : Nat
  offset : Option Int
deriving DecidableEq, Repr

/-- The Python values handled by the codec.  2-tuples used by the codec
always pair an optional annot string with a payload value, so they
are modelled as `tuple (a : Option (List Char)) (v : PyVal)`. -/
inductive PyVal where
  | bytes (b : List Nat)
  | str (s : List Char)
  | int (i : Int)
  | float (f : PyFloat)
  | time (t : Datetime)
  | tuple (a : Option (List Char)) (v : PyVal)
deriving DecidableEq, Repr

/-- Whether a value is a `bytes` instance (`isinstance(value, bytes)`). -/
def PyVal.isBytes : PyVal → Bool
  | .bytes _ => true
  | _ => false

/-- Whether a value is a tuple (`isinstance(value, tuple)`). -/
def PyVal.isTuple : PyVal → Bool
  | .tuple _ _ => true
  | _ => false

/-- One element of the stream consumed by `decode_line`: a "not ready"
placeholder (Python `None`), the blank-line terminator (Python `'\n'`),
or a raw `(key, value)` line from the transport. -/
inductive InItem where
  | pending
  | term
  | kv (key : List Char) (value : List Nat)
deriving DecidableEq, Repr

/-- One record yielded by `decode_line` / `decode_block`. -/
inductive OutItem where
  | pending
  | term
  | kv (key : List Char) (value : PyVal)
deriving DecidableEq, Repr

/-- Outcome of one `decode_line` generator run: the records yielded so
far together with either a normal return (`ok`, with the unconsumed
stream), an `EOFError` (`eof`), or another raised exception (`err`). -/
inductive DLRes where
  | ok (outs : List OutItem) (rest : List InItem)
  | eof (outs : List OutItem)
  | err (outs : List OutItem) (e : PyErr)
deriving DecidableEq, Repr

/-- Prepend one already-yielded record to a generator outcome. -/
def DLRes.push (o : OutItem) : DLRes → DLRes
  | .ok outs rest => .ok (o :: outs) rest
  | .eof outs => .eof (o :: outs)
  | .err outs e => .err (o :: outs) e

/-- Input to `encode_line`: Python `None`, the `'\n'` terminator, or a
`(key, value)` record. -/
inductive EncIn where
  | nothing
  | term
  | kv (key : List Char) (value : PyVal)
deriving DecidableEq, Repr

/-- Output of `encode_line`.  On the `kv` shape the payload is whatever
value survived the final byte-ness guard (always bytes on success, which
is proved rather than imposed by the type). -/
inductive EncOut where
  | nothing
  | term
  | kv (key : List Char) (value : PyVal)
deriving DecidableEq, Repr

abbrev Bytes := List Nat

abbrev DecTable := List (List (List Char) × (Bytes → Except PyErr PyVal))

abbrev Fallback := List Char → Bytes → Except PyErr PyVal

abbrev EncTable := List (List (List Char) × (PyVal → Except PyErr PyVal))

abbrev EncDefault := Option (List Char) → PyVal → Except PyErr PyVal

/-- The runtime types registered in the `TYPES` inference table. -/
inductive PyType where
  | intT
  | floatT
  | strT
  | timeT
deriving DecidableEq, Repr

abbrev TypeTable := List (PyType × List Char)

/-- Python `isinstance(value, t)` for the types in the inference table. -/
def isinstance (v : PyVal) : PyType → Bool
  | .intT => match v with | .int _ => true | _ => false
  | .floatT => match v with | .float _ => true | _ => false
  | .strT => match v with | .str _ => true | _ => false
  | .timeT => match v with | .time _ => true | _ => false

/-! ### Decimal digit primitives (base-10 printing and parsing on bytes) -/

/-- ASCII decimal digit test on a byte. -/
def isDigitByte (b : Nat) : Bool := 48 ≤ b && b ≤ 57

/-- Little-endian decimal digits of `m`, with explicit structural fuel so
that the definition reduces in the kernel.  `digitsRevAux f m` is correct
whenever `m ≤ f`. -/
def digitsRevAux : Nat → Nat → List Nat
  | 0, _ => []
  | f + 1, m => if m = 0 then [] else m % 10 :: digitsRevAux f (m / 10)

/-- Little-endian decimal digits of `m` (empty for `0`). -/
def digitsRev (m : Nat) : List Nat := digitsRevAux m m

/-- Number of decimal digits of `m` (`0` for `0`). -/
def numLen (m : Nat) : Nat := (digitsRev m).length

/-- Big-endian, zero-padded ASCII digits of `m` in exactly `w` bytes
(Python `'%0*d' % (w, m)` for `m < 10 ^ w`). -/
def padDigits : Nat → Nat → List Nat
  | 0, _ => []
  | w + 1, m => (48 + m / 10 ^ w) :: padDigits w (m % 10 ^ w)

/-- ASCII decimal digits of `m` with no padding (Python `str(m)` for a
natural number). -/
def byteDigits (m : Nat) : List Nat :=
  if m = 0 then [48] else padDigits (numLen m) m

/-- Numeric value of a string of ASCII digit bytes. -/
def natFromDigitBytes (l : List Nat) : Nat :=
  l.foldl (fun acc b => acc * 10 + (b - 48)) 0

/-- Python `str(i)` for an `int`, as ASCII bytes. -/
def int_bytes (i : Int) : List Nat :=
  if i < 0 then 45 :: byteDigits i.natAbs else byteDigits i.toNat

/-- ASCII whitespace test used when parsing numbers. -/
def isSpaceByte (b : Nat) : Bool :=
  b = 32 || b = 9 || b = 10 || b = 13 || b = 11 || b = 12

/-- Strip leading and trailing ASCII whitespace. -/
def stripSpaces (l : List Nat) : List Nat :=
  ((l.dropWhile isSpaceByte).reverse.dropWhile isSpaceByte).reverse

/-- Split an optional leading `-`/`+` sign off a byte string. -/
def splitSign : List Nat → Bool × List Nat
  | [] => (false, [])
  | b :: r =>
    if b = 45 then (true, r)
    else if b = 43 then (false, r)
    else (false, b :: r)

/-- Python `int(text)` on ASCII bytes or codepoints: optional surrounding
whitespace, optional sign, then one or more decimal digits. -/
def parse_py_int (l : List Nat) : Option Int :=
  let l := stripSpaces l
  let p := splitSign l
  match p with
  | (neg, ds) =>
    if ds = [] then none
    else if ds.all isDigitByte then
      let n : Int := natFromDigitBytes ds
      some (if neg then -n else n)
    else none

/-! ### UTF-8 -/

/-- UTF-8 encoding of one Unicode scalar value, given as its codepoint. -/
def utf8EncodeNat (n : Nat) : List Nat :=
  if n < 0x80 then [n]
  else if n < 0x800 then [0xC0 + n / 0x40, 0x80 + n % 0x40]
  else if n < 0x10000 then
    [0xE0 + n / 0x1000, 0x80 + n / 0x40 % 0x40, 0x80 + n % 0x40]
  else
    [0xF0 + n / 0x40000, 0x80 + n / 0x1000 % 0x40, 0x80 + n / 0x40 % 0x40,
      0x80 + n % 0x40]

/-- UTF-8 encoding of one character. -/
def utf8EncodeChar (c : Char) : List Nat := utf8EncodeNat c.toNat

/-- Python `s.encode('utf-8')`. -/
def utf8_encode (s : List Char) : List Nat := s.flatMap utf8EncodeChar

/-- UTF-8 continuation byte test. -/
def isCont (b : Nat) : Bool := 0x80 ≤ b && b < 0xC0

/-- Decode one UTF-8 sequence from the front of a byte string: rejects
stray or missing continuation bytes, overlong forms, surrogates and
out-of-range values; returns the codepoint and the remaining bytes. -/
def utf8DecodeOne : List Nat → Option (Nat × List Nat)
  | [] => none
  | b :: rest =>
    if b < 0x80 then some (b, rest)
    else if b < 0xC0 then none
    else if b < 0xE0 then
      match rest with
      | b1 :: rest1 =>
        let n := (b - 0xC0) * 0x40 + (b1 - 0x80)
        if isCont b1 && 0x80 ≤ n then some (n, rest1) else none
      | [] => none
    else if b < 0xF0 then
      match rest with
      | b1 :: b2 :: rest2 =>
        let n := (b - 0xE0) * 0x1000 + (b1 - 0x80) * 0x40 + (b2 - 0x80)
        if isCont b1 && isCont b2 && 0x800 ≤ n &&
            (n < 0xD800 || 0xE000 ≤ n) then some (n, rest2)
        else none
      | _ => none
    else if b < 0xF8 then
      match rest with
      | b1 :: b2 :: b3 :: rest3 =>
        let n := (b - 0xF0) * 0x40000 + (b1 - 0x80) * 0x1000 +
          (b2 - 0x80) * 0x40 + (b3 - 0x80)
        if isCont b1 && isCont b2 && isCont b3 && 0x10000 ≤ n &&
            n < 0x110000 then some (n, rest3)
        else none
      | _ => none
    else none

/-- Fuel-indexed UTF-8 decoding loop; each decoded sequence consumes at
least one byte, so byte-count fuel always suffices. -/
def utf8DecodeAux : Nat → List Nat → Option (List Char)
  | _, [] => some []
  | 0, _ :: _ => none
  | f + 1, b :: rest =>
    match utf8DecodeOne (b :: rest) with
    | none => none
    | some (n, rest1) => (utf8DecodeAux f rest1).map (Char.ofNat n :: ·)

/-- UTF-8 decoding (Python `b.decode('utf-8')`). -/
def utf8_decode (l : List Nat) : Option (List Char) := utf8DecodeAux l.length l

/-! ### Python float: shortest-decimal repr and `float(text)` parsing -/

/-- ASCII bytes of a list of decimal digit values. -/
def digitBytes (ds : List Nat) : List Nat := ds.map (48 + ·)

/-- Python `repr`/`str` of a finite float: positional notation when the
decimal exponent is in `[-4, 16)` (always keeping a digit after the
point), otherwise scientific notation `d[.dd]e±XX` with a sign and at
least two exponent digits. -/
def py_float_repr (f : PyFloat) : List Nat :=
  let body : List Nat :=
    match f.digits with
    | [] => [48, 46, 48]
    | d :: ds =>
      let k := f.digits.length
      if -4 ≤ f.exp ∧ f.exp < 16 then
        if (k : Int) - 1 ≤ f.exp then
          digitBytes f.digits ++
            List.replicate (f.exp - ((k : Int) - 1)).toNat 48 ++ [46, 48]
        else if 0 ≤ f.exp then
          digitBytes (f.digits.take (f.exp.toNat + 1)) ++
            46 :: digitBytes (f.digits.drop (f.exp.toNat + 1))
        else
          [48, 46] ++ List.replicate (-f.exp - 1).toNat 48 ++
            digitBytes f.digits
      else
        [48 + d] ++ (if ds = [] then [] else 46 :: digitBytes ds) ++
          101 :: (if f.exp < 0 then [45] else [43]) ++
          (if f.exp.natAbs < 10 then [48, 48 + f.exp.natAbs]
            else byteDigits f.exp.natAbs)
  (if f.neg then [45] else []) ++ body

/-- Split a byte string at the first occurrence of `c`. -/
def splitFirst (c : Nat) : List Nat → List Nat × Option (List Nat)
  | [] => ([], none)
  | b :: l =>
    if b = c then ([], some l)
    else
      let r := splitFirst c l
      (b :: r.1, r.2)

/-- Split a byte string at the first occurrence of any byte in `cs`. -/
def splitFirstAny (cs : List Nat) : List Nat → List Nat × Option (List Nat)
  | [] => ([], none)
  | b :: l =>
    if cs.contains b then ([], some l)
    else
      let r := splitFirstAny cs l
      (b :: r.1, r.2)

/-- Normalize a parsed decimal (sign, raw digit values, position of the
decimal point counted from the left of the digit string) into the
canonical `PyFloat` form: strip leading and trailing zeros, fixing the
scientific exponent accordingly; an all-zero significand is zero. -/
def norm_float (neg : Bool) (ds : List Nat) (p : Int) : PyFloat :=
  let sig := ds.dropWhile (· == 0)
  let j : Nat := ds.length - sig.length
  let core := (sig.reverse.dropWhile (· == 0)).reverse
  if core = [] then ⟨neg, [], 0⟩ else ⟨neg, core, p - 1 - j⟩

/-- Python `float(text)` on ASCII bytes or codepoints, restricted to the
finite decimal grammar `[ws] [sign] digits [. digits] [(e|E) [sign]
digits] [ws]` (the `inf`/`nan` spellings are outside the codec's use). -/
def parse_py_float (l : List Nat) : Option PyFloat :=
  let l := stripSpaces l
  let p := splitSign l
  match p with
  | (neg, l) =>
    let me := splitFirstAny [101, 69] l
    let expVal? : Option Int :=
      match me.2 with
      | none => some 0
      | some e =>
        let q := splitSign e
        match q with
        | (eneg, ds) =>
          if ds = [] then none
          else if ds.all isDigitByte then
            let n : Int := natFromDigitBytes ds
            some (if eneg then -n else n)
          else none
    match expVal? with
    | none => none
    | some ev =>
      let ipfp := splitFirst 46 me.1
      let ip := ipfp.1
      let fp := (ipfp.2).getD []
      if ip = [] && fp = [] then none
      else if ip.all isDigitByte && fp.all isDigitByte then
        some (norm_float neg ((ip ++ fp).map (· - 48)) ((ip.length : Int) + ev))
      else none

/-- Numeric value of a big-endian list of digit values. -/
def digitListToNat (ds : List Nat) : Nat := ds.foldl (fun a d => a * 10 + d) 0

/-- Python `int(f)` for a finite float: truncation toward zero. -/
def PyFloat.trunc (f : PyFloat) : Int :=
  if f.exp < 0 then 0
  else
    let e := f.exp.toNat
    let ds := f.digits.take (e + 1)
    let n := digitListToNat ds * 10 ^ (e + 1 - ds.length)
    if f.neg then -(n : Int) else (n : Int)

/-- Drop trailing zero digits. -/
def stripTrailingZeroDigits (ds : List Nat) : List Nat :=
  (ds.reverse.dropWhile (· == 0)).reverse

/-- Python `float(i)` for an `int` (exact in the decimal model). -/
def float_of_int (i : Int) : PyFloat :=
  let m := i.natAbs
  if m = 0 then ⟨false, [], 0⟩
  else
    ⟨decide (i < 0), stripTrailingZeroDigits ((digitsRev m).reverse),
      (numLen m : Int) - 1⟩

/-! ### ISO-8601 timestamps (`datetime.isoformat` / `fromisoformat`) -/

/-- Offset part of `isoformat`: sign, two-digit hours, `:`, two-digit
minutes, for an offset of `o` minutes. -/
def iso_offset_bytes (o : Int) : List Nat :=
  (if o < 0 then [45] else [43]) ++ padDigits 2 (o.natAbs / 60) ++
    58 :: padDigits 2 (o.natAbs % 60)

/-- Python `datetime.isoformat()`: `YYYY-MM-DDTHH:MM:SS`, then
`.ffffff` when the microsecond field is nonzero, then the offset when
the datetime is aware. -/
def isoformat (t : Datetime) : List Nat :=
  padDigits 4 t.year ++ 45 :: padDigits 2 t.month ++ 45 :: padDigits 2 t.day ++
    84 :: padDigits 2 t.hour ++ 58 :: padDigits 2 t.minute ++
    58 :: padDigits 2 t.second ++
    (if t.microsecond = 0 then [] else 46 :: padDigits 6 t.microsecond) ++
    (match t.offset with
      | none => []
      | some o => iso_offset_bytes o)

/-- Read exactly `w` ASCII digits, accumulating their value onto `acc`. -/
def takeFixedAux (acc : Nat) : Nat → List Nat → Option (Nat × List Nat)
  | 0, l => some (acc, l)
  | _ + 1, [] => none
  | w + 1, c :: l =>
    if isDigitByte c then takeFixedAux (acc * 10 + (c - 48)) w l else none

/-- Read exactly `w` ASCII digits as a number. -/
def takeFixed (w : Nat) (l : List Nat) : Option (Nat × List Nat) :=
  takeFixedAux 0 w l

/-- Expect and consume one given byte. -/
def expectByte (c : Nat) : List Nat → Option (List Nat)
  | b :: l => if b = c then some l else none
  | [] => none

/-- Length of a month, accounting for leap years. -/
def days_in_month (y m : Nat) : Nat :=
  if m = 2 then (if y % 4 = 0 && (y % 100 ≠ 0 || y % 400 = 0) then 29 else 28)
  else if m = 4 || m = 6 || m = 9 || m = 11 then 30 else 31

/-- The field ranges every Python `datetime` object satisfies. -/
def Datetime.Valid (t : Datetime) : Prop :=
  1 ≤ t.year ∧ t.year ≤ 9999 ∧ 1 ≤ t.month ∧ t.month ≤ 12 ∧ 1 ≤ t.day ∧
    t.day ≤ days_in_month t.year t.month ∧ t.hour ≤ 23 ∧ t.minute ≤ 59 ∧
    t.second ≤ 59 ∧ t.microsecond ≤ 999999 ∧ (t.offset.getD 0).natAbs ≤ 1439

instance (t : Datetime) : Decidable t.Valid := by
  unfold Datetime.Valid; infer_instance

/-- Parse the `±HH:MM` offset tail, in minutes. -/
def parse_iso_offset (l : List Nat) : Option (Int × List Nat) := do
  let (sgn, l) ←
    match l with
    | 45 :: r => some (true, r)
    | 43 :: r => some (false, r)
    | _ => none
  let (hh, l) ← takeFixed 2 l
  let l ← expectByte 58 l
  let (mm, l) ← takeFixed 2 l
  if hh ≤ 23 ∧ mm ≤ 59 then
    let n : Int := (hh * 60 + mm : Nat)
    some (if sgn then -n else n, l)
  else none

/-- Parse the fixed `YYYY-MM-DDTHH:MM:SS` prefix of an isoformat
string, returning the six fields and the remaining codepoints. -/
def parse_iso_main (l : List Nat) :
    Option (Nat × Nat × Nat × Nat × Nat × Nat × List Nat) := do
  let (y, l) ← takeFixed 4 l
  let l ← expectByte 45 l
  let (mo, l) ← takeFixed 2 l
  let l ← expectByte 45 l
  let (d, l) ← takeFixed 2 l
  let l ← expectByte 84 l
  let (h, l) ← takeFixed 2 l
  let l ← expectByte 58 l
  let (mi, l) ← takeFixed 2 l
  let l ← expectByte 58 l
  let (s, l) ← takeFixed 2 l
  pure (y, mo, d, h, mi, s, l)

/-- Parse the optional `.ffffff` fractional-second part. -/
def parse_iso_frac : List Nat → Option (Nat × List Nat)
  | c :: r => if c = 46 then takeFixed 6 r else pure (0, c :: r)
  | [] => pure (0, [])

/-- Parse the optional offset tail. -/
def parse_iso_tz : List Nat → Option (Option Int × List Nat)
  | [] => pure (none, [])
  | c :: r => (parse_iso_offset (c :: r)).map fun p => (some p.1, p.2)

/-- Python `datetime.fromisoformat` on codepoints, restricted to the
shapes `isoformat` produces: date, `T`, time, optional 6-digit
fraction, optional `±HH:MM` offset; field ranges are validated as the
`datetime` constructor would. -/
def parse_isoformat (l : List Nat) : Option Datetime := do
  let (y, mo, d, h, mi, s, l) ← parse_iso_main l
  let (us, l) ← parse_iso_frac l
  let (off, l) ← parse_iso_tz l
  if l = [] then
    let t : Datetime := ⟨y, mo, d, h, mi, s, us, off⟩
    if t.Valid then some t else none
  else none

/-! ### Converters, tables and error helpers (`a_kvnl.py` lines 20-53) -/

/-- Python `int(v)` applied to a codec value. -/
def py_int_of : PyVal → Except PyErr Int
  | .int i => .ok i
  | .float f => .ok f.trunc
  | .str s =>
    match parse_py_int (s.map Char.toNat) with
    | some i => .ok i
    | none => .error .ValueError
  | .bytes b =>
    match parse_py_int b with
    | some i => .ok i
    | none => .error .ValueError
  | _ => .error .TypeError

/-- Python `float(v)` applied to a codec value. -/
def py_float_of : PyVal → Except PyErr PyFloat
  | .float f => .ok f
  | .int i => .ok (float_of_int i)
  | .str s =>
    match parse_py_float (s.map Char.toNat) with
    | some f => .ok f
    | none => .error .ValueError
  | .bytes b =>
    match parse_py_float b with
    | some f => .ok f
    | none => .error .ValueError
  | _ => .error .TypeError

/-- `DECODERS['Int']`: `lambda v: int(v)`. -/
def dec_Int (v : Bytes) : Except PyErr PyVal :=
  match parse_py_int v with
  | some i => .ok (.int i)
  | none => .error .ValueError

/-- `DECODERS['Float']`: `lambda v: float(v)`. -/
def dec_Float (v : Bytes) : Except PyErr PyVal :=
  match parse_py_float v with
  | some f => .ok (.float f)
  | none => .error .ValueError

/-- `DECODERS['Unicode']`: `lambda v: v.decode('utf-8')`. -/
def dec_Unicode (v : Bytes) : Except PyErr PyVal :=
  match utf8_decode v with
  | some s => .ok (.str s)
  | none => .error .UnicodeError

/-- `DECODERS['ASCII']`: `lambda v: v.decode('ascii')`. -/
def dec_ASCII (v : Bytes) : Except PyErr PyVal :=
  if v.all (· < 128) then .ok (.str (v.map Char.ofNat)) else .error .UnicodeError

/-- `DECODERS['Time']`: `lambda v: datetime.fromisoformat(v.decode())`. -/
def dec_Time (v : Bytes) : Except PyErr PyVal :=
  match utf8_decode v with
  | none => .error .UnicodeError
  | some s =>
    match parse_isoformat (s.map Char.toNat) with
    | some t => .ok (.time t)
    | none => .error .ValueError

/-- The built-in decode table, in source order. -/
def DECODERS : DecTable :=
  [(["Int".toList, "I".toList], dec_Int),
   (["Float".toList, "F".toList], dec_Float),
   (["Unicode".toList, "U".toList], dec_Unicode),
   (["ASCII".toList, "A".toList], dec_ASCII),
   (["Time".toList, "T".toList], dec_Time)]

/-- `ENCODERS['Int']`: `lambda v: str(int(v)).encode()`. -/
def enc_Int (v : PyVal) : Except PyErr PyVal :=
  match py_int_of v with
  | .ok i => .ok (.bytes (int_bytes i))
  | .error e => .error e

/-- `ENCODERS['Float']`: `lambda v: str(float(v)).encode()`. -/
def enc_Float (v : PyVal) : Except PyErr PyVal :=
  match py_float_of v with
  | .ok f => .ok (.bytes (py_float_repr f))
  | .error e => .error e

/-- `ENCODERS['Unicode']`: `lambda v: v.encode('utf-8')`. -/
def enc_Unicode (v : PyVal) : Except PyErr PyVal :=
  match v with
  | .str s => .ok (.bytes (utf8_encode s))
  | _ => .error .AttributeError

/-- `ENCODERS['ASCII']`: `lambda v: v.encode('ascii')`. -/
def enc_ASCII (v : PyVal) : Except PyErr PyVal :=
  match v with
  | .str s =>
    if s.all (·.toNat < 128) then .ok (.bytes (s.map Char.toNat))
    else .error .UnicodeError
  | _ => .error .AttributeError

/-- `ENCODERS['Time']`: `lambda v: v.isoformat().encode()` (the
isoformat text is ASCII, so its UTF-8 bytes are its codepoints). -/
def enc_Time (v : PyVal) : Except PyErr PyVal :=
  match v with
  | .time t => .ok (.bytes (isoformat t))
  | _ => .error .AttributeError

/-- The built-in encode table, in source order. -/
def ENCODERS : EncTable :=
  [(["Int".toList, "I".toList], enc_Int),
   (["Float".toList, "F".toList], enc_Float),
   (["Unicode".toList, "U".toList], enc_Unicode),
   (["ASCII".toList, "A".toList], enc_ASCII),
   (["Time".toList, "T".toList], enc_Time)]

/-- The type-inference table, in source order. -/
def TYPES : TypeTable :=
  [(.intT, "I".toList), (.floatT, "F".toList),
   (.strT, "U".toList), (.timeT, "T".toList)]

/-- `raise_decoding_error(annot, value)`. -/
def raise_decoding_error : Fallback :=
  fun annot _ => .error (.DecodingError annot)

/-- `ensure_encoded(annot, value)`: raise `EncodingError` unless the
value is bytes, else return it. -/
def ensure_encoded : EncDefault := fun _ value =>
  if value.isBytes then .ok value else .error .EncodingError

/-! ### decode_line / decode_block (`a_kvnl.py` lines 56-149, 245-251) -/

/-- `key.split('!', maxsplit=1)`, fused with the `'!' not in key` test:
returns the part before the first `'!'` and, when one exists, the part
after it. -/
def splitBang : List Char → List Char × Option (List Char)
  | [] => ([], none)
  | c :: rest =>
    if c = '!' then ([], some rest)
    else
      let r := splitBang rest
      (c :: r.1, r.2)

/-- First decoder whose synonym set contains the annot
(`for annotations, decode in decoders.items(): if annot in
annotations`). -/
def find_decoder (decoders : DecTable) (annot : List Char) :
    Option (Bytes → Except PyErr PyVal) :=
  (decoders.find? (fun p => p.1.contains annot)).map (·.2)

/-- `decode_line(stream, decoders, default)` over a finite stream: yields
`pending` for every `None`, forwards the `'\n'` terminator, passes
unannotated values through as bytes, otherwise dispatches on the
annot through the table, the fallback, or the tuple form, and
raises `EOFError` when the stream is exhausted first. -/
def decode_line (decoders : Option DecTable) (default : Option Fallback) :
    List InItem → DLRes
  | [] => .eof []
  | .pending :: rest => (decode_line decoders default rest).push .pending
  | .term :: rest => .ok [.term] rest
  | .kv key value :: rest =>
    let sp := splitBang key
    match sp.2 with
    | none => .ok [.kv key (.bytes value)] rest
    | some annot =>
      let key := sp.1
      match decoders with
      | none => .ok [.kv key (.tuple (some annot) (.bytes value))] rest
      | some tbl =>
        match find_decoder tbl annot with
        | some decode =>
          match decode value with
          | .ok v => .ok [.kv key v] rest
          | .error e => .err [] e
        | none =>
          match default with
          | some d =>
            match d annot value with
            | .ok v => .ok [.kv key v] rest
            | .error e => .err [] e
          | none =>
            .ok [.kv key (.tuple (some annot) (.bytes value))] rest

/-- Fuel-indexed body of `decode_block`; the fuel only bounds the number
of `decode_line` calls and `decode_block` always supplies enough.  Note
the inner call passes `decoders` but NOT `default`, exactly as the
source line `yield from decode_line(stream, decoders)` does. -/
def decode_block_aux (decoders : Option DecTable) (default : Option Fallback) :
    Nat → List InItem → List OutItem × Option PyErr
  | 0, _ => ([], none)
  | fuel + 1, stream =>
    match decode_line decoders (some raise_decoding_error) stream with
    | .eof outs => (outs, none)
    | .err outs e => (outs, some e)
    | .ok outs rest =>
      let r := decode_block_aux decoders default fuel rest
      (outs ++ r.1, r.2)

/-- `decode_block(stream, decoders, default)`: repeatedly `yield from
decode_line(stream, decoders)` until `EOFError`, which is swallowed;
any other exception escapes with the records already yielded. -/
def decode_block (decoders : Option DecTable) (default : Option Fallback)
    (stream : List InItem) : List OutItem × Option PyErr :=
  decode_block_aux decoders default (stream.length + 1) stream

/-! ### encode_line / encode_block (`a_kvnl.py` lines 152-242, 254-257) -/

/-- Lines 219-222: a tuple value is an explicit `(annot, value)`
pair, anything else is a bare value with no annot yet. -/
def normalize_value : PyVal → Option (List Char) × PyVal
  | .tuple a v => (a, v)
  | v => (none, v)

/-- Lines 224-228: infer the annot from the value's runtime type
when none was given (first matching entry wins). -/
def infer_annot (types : TypeTable) (v : PyVal) : Option (List Char) :=
  (types.find? (fun p => isinstance v p.1)).map (·.2)

/-- Lines 230-233: convert through the first encoder whose synonym set
contains the annot; an unset annot matches nothing and leaves
the value unchanged. -/
def apply_encoder (encoders : EncTable) (annot : Option (List Char))
    (v : PyVal) : Except PyErr PyVal :=
  match encoders.find? (fun p =>
      match annot with
      | some a => p.1.contains a
      | none => false) with
  | some p => p.2 v
  | none => .ok v

/-- The annot and converted value a record's value spec reaches the
default handler with (lines 219-233 as one function of the already-split
annot and value). -/
def converted_value (encoders : EncTable) (types : TypeTable)
    (annot0 : Option (List Char)) (v : PyVal) :
    Option (List Char) × Except PyErr PyVal :=
  let annot :=
    match annot0 with
    | none => infer_annot types v
    | some a => some a
  (annot, apply_encoder encoders annot v)

/-- Lines 224-242 for an already-split `(annot, value)` pair:
convert, apply the default handler, run the unconditional byte-ness
guard, then suffix the key when an annot is set. -/
def encode_tagged (encoders : EncTable) (types : TypeTable)
    (default : EncDefault) (key : List Char) (annot0 : Option (List Char))
    (v : PyVal) : Except PyErr EncOut :=
  let ac := converted_value encoders types annot0 v
  match ac.2 with
  | .error e => .error e
  | .ok value2 =>
    match default ac.1 value2 with
    | .error e => .error e
    | .ok value3 =>
      match ensure_encoded ac.1 value3 with
      | .error e => .error e
      | .ok _ =>
        let key :=
          match ac.1 with
          | some a => key ++ '!' :: a
          | none => key
        .ok (.kv key value3)

/-- `encode_line(key_and_value, encoders, default, types)`. -/
def encode_line (key_and_value : EncIn) (encoders : Option EncTable)
    (default : EncDefault) (types : Option TypeTable) : Except PyErr EncOut :=
  match key_and_value with
  | .nothing => .ok .nothing
  | .term => .ok .term
  | .kv key value =>
    let av := normalize_value value
    encode_tagged (encoders.getD []) (types.getD []) default key av.1 av.2

/-- `encode_block(lines, encoders, default, types)`: encode each record
in order; an exception stops the sequence there and escapes. -/
def encode_block (lines : List EncIn) (encoders : Option EncTable)
    (default : EncDefault) (types : Option TypeTable) :
    List EncOut × Option PyErr :=
  match lines with
  | [] => ([], none)
  | x :: rest =>
    match encode_line x encoders default types with
    | .error e => ([], some e)
    | .ok o =>
      let r := encode_block rest encoders default types
      (o :: r.1, r.2)

/-- The annot and converted value reached from a raw value spec
(lines 219-233 of the source in one step). -/
def converted_of (encoders : EncTable) (types : TypeTable) (value : PyVal) :
    Option (List Char) × Except PyErr PyVal :=
  let av := normalize_value value
  converted_value encoders types av.1 av.2

/-- Well-formedness of the decimal float model: digit values are decimal,
the significand has no leading or trailing zero, and zero is the
canonical `⟨neg, [], 0⟩`.  Every value `float(text)` can produce
satisfies this. -/
def PyFloat.WF (f : PyFloat) : Prop :=
  (∀ d ∈ f.digits, d ≤ 9) ∧ (f.digits = [] → f.exp = 0) ∧
    f.digits.head? ≠ some 0 ∧ f.digits.getLast? ≠ some 0

instance (f : PyFloat) : Decidable f.WF := by
  unfold PyFloat.WF; infer_instance

/-- The value shapes quantified over by the round-trip property: an
integer, a (finite, well-formed) float, a Unicode or ASCII string, or a
valid timestamp. -/
inductive RTVal : PyVal → Prop where
  | int (n : Int) : RTVal (.int n)
  | float (f : PyFloat) : f.WF → RTVal (.float f)
  | str (s : List Char) : RTVal (.str s)
  | time (t : Datetime) : t.Valid → RTVal (.time t)

/-! ## Lemmas: decimal digit printing and parsing -/

theorem pow10_pos (w : Nat) : 0 < 10 ^ w := Nat.pos_pow_of_pos w (by norm_num)

theorem div_pow10_lt {w m : Nat} (h : m < 10 ^ (w + 1)) : m / 10 ^ w < 10 := by
  apply Nat.div_lt_of_lt_mul
  calc m < 10 ^ (w + 1) := h
    _ = 10 ^ w * 10 := by ring

theorem padDigits_mem {w m : Nat} (h : m < 10 ^ w) :
    ∀ b ∈ padDigits w m, 48 ≤ b ∧ b ≤ 57 := by
  induction w generalizing m with
  | zero => simp [padDigits]
  | succ w ih =>
    intro b hb
    simp only [padDigits, List.mem_cons] at hb
    have hq : m / 10 ^ w < 10 := div_pow10_lt h
    rcases hb with rfl | hb
    · generalize m / 10 ^ w = q at hq
      omega
    · exact ih (Nat.mod_lt _ (pow10_pos w)) b hb

theorem padDigits_foldl {w : Nat} : ∀ {m acc : Nat}, m < 10 ^ w →
    (padDigits w m).foldl (fun acc b => acc * 10 + (b - 48)) acc =
      acc * 10 ^ w + m := by
  induction w with
  | zero => intro m acc h; interval_cases m; simp [padDigits]
  | succ w ih =>
    intro m acc h
    have hq : m / 10 ^ w < 10 := div_pow10_lt h
    simp only [padDigits, List.foldl_cons]
    rw [ih (Nat.mod_lt _ (pow10_pos w))]
    have hdm := Nat.div_add_mod m (10 ^ w)
    have h48 : 48 + m / 10 ^ w - 48 = m / 10 ^ w := by
      generalize m / 10 ^ w = q at hq; omega
    rw [h48]
    calc (acc * 10 + m / 10 ^ w) * 10 ^ w + m % 10 ^ w
        = acc * (10 ^ w * 10) + (10 ^ w * (m / 10 ^ w) + m % 10 ^ w) := by ring
      _ = acc * 10 ^ (w + 1) + m := by rw [hdm]; ring

theorem digitsRevAux_lt {f : Nat} : ∀ {m : Nat}, m ≤ f →
    m < 10 ^ (digitsRevAux f m).length := by
  induction f with
  | zero => intro m h; interval_cases m; simp [digitsRevAux]
  | succ f ih =>
    intro m h
    by_cases hm : m = 0
    · subst hm; simp [digitsRevAux]
    · have hdiv : m / 10 ≤ f := by omega
      have := ih hdiv
      simp only [digitsRevAux, hm, if_false, List.length_cons]
      have hdm := Nat.div_add_mod m 10
      have hmod : m % 10 < 10 := Nat.mod_lt _ (by norm_num)
      calc m = 10 * (m / 10) + m % 10 := (Nat.div_add_mod m 10).symm
        _ < 10 * 10 ^ (digitsRevAux f (m / 10)).length := by omega
        _ = 10 ^ ((digitsRevAux f (m / 10)).length + 1) := by ring

theorem numLen_lt (m : Nat) : m < 10 ^ numLen m := digitsRevAux_lt le_rfl

theorem numLen_pos {m : Nat} (h : m ≠ 0) : 0 < numLen m := by
  cases m with
  | zero => omega
  | succ k => simp [numLen, digitsRev, digitsRevAux]

theorem byteDigits_mem {m : Nat} : ∀ b ∈ byteDigits m, 48 ≤ b ∧ b ≤ 57 := by
  unfold byteDigits
  by_cases hm : m = 0
  · simp [hm]
  · simp only [hm, if_false]
    exact padDigits_mem (numLen_lt m)

theorem byteDigits_ne_nil (m : Nat) : byteDigits m ≠ [] := by
  unfold byteDigits
  by_cases hm : m = 0
  · simp [hm]
  · simp only [hm, if_false]
    have := numLen_pos hm
    cases hn : numLen m with
    | zero => omega
    | succ w => simp [padDigits]

theorem natFromDigitBytes_byteDigits (m : Nat) :
    natFromDigitBytes (byteDigits m) = m := by
  unfold byteDigits natFromDigitBytes
  by_cases hm : m = 0
  · simp [hm]
  · simp only [hm, if_false]
    have := @padDigits_foldl (numLen m) m 0 (numLen_lt m)
    simpa using this

theorem isDigitByte_of_bounds {b : Nat} (h : 48 ≤ b ∧ b ≤ 57) :
    isDigitByte b = true := by
  simp [isDigitByte]; omega

theorem byteDigits_all_digits (m : Nat) :
    (byteDigits m).all isDigitByte = true := by
  rw [List.all_eq_true]
  intro b hb
  exact isDigitByte_of_bounds (byteDigits_mem b hb)

theorem not_space_of_digit {b : Nat} (h : 48 ≤ b ∧ b ≤ 57) :
    isSpaceByte b = false := by
  simp [isSpaceByte]; omega

theorem dropWhile_eq_self_of_all {p : Nat → Bool} {l : List Nat}
    (h : ∀ b ∈ l, p b = false) : l.dropWhile p = l := by
  cases l with
  | nil => rfl
  | cons a l => simp [List.dropWhile_cons, h a (List.mem_cons_self a l)]

theorem stripSpaces_eq_self {l : List Nat}
    (h : ∀ b ∈ l, isSpaceByte b = false) : stripSpaces l = l := by
  unfold stripSpaces
  rw [dropWhile_eq_self_of_all h, dropWhile_eq_self_of_all, List.reverse_reverse]
  intro b hb
  exact h b (List.mem_reverse.mp hb)

theorem splitSign_neg (l : List Nat) : splitSign (45 :: l) = (true, l) := by
  simp [splitSign]

theorem splitSign_pos (l : List Nat) : splitSign (43 :: l) = (false, l) := by
  simp [splitSign]

theorem splitSign_digit_head {b : Nat} (l : List Nat) (h45 : b ≠ 45)
    (h43 : b ≠ 43) : splitSign (b :: l) = (false, b :: l) := by
  simp [splitSign, h45, h43]

theorem splitSign_of_digits {l : List Nat} (hne : l ≠ [])
    (h : ∀ b ∈ l, 48 ≤ b ∧ b ≤ 57) : splitSign l = (false, l) := by
  cases l with
  | nil => exact absurd rfl hne
  | cons b ds =>
    have hb := h b (List.mem_cons_self b ds)
    exact splitSign_digit_head ds (by omega) (by omega)

theorem parse_py_int_int_bytes (i : Int) : parse_py_int (int_bytes i) = some i := by
  have hmem : ∀ b ∈ int_bytes i, (48 ≤ b ∧ b ≤ 57) ∨ b = 45 := by
    intro b hb
    unfold int_bytes at hb
    by_cases hneg : i < 0
    · simp only [hneg, if_true, List.mem_cons] at hb
      rcases hb with rfl | hb
      · right; rfl
      · left; exact byteDigits_mem b hb
    · simp only [hneg, if_false] at hb
      left; exact byteDigits_mem b hb
  have hstrip : stripSpaces (int_bytes i) = int_bytes i := by
    apply stripSpaces_eq_self
    intro b hb
    rcases hmem b hb with h | rfl
    · exact not_space_of_digit h
    · rfl
  unfold parse_py_int
  by_cases hneg : i < 0
  · have hib : int_bytes i = 45 :: byteDigits i.natAbs := by
      simp [int_bytes, hneg]
    rw [hib] at hstrip
    have hne := byteDigits_ne_nil i.natAbs
    simp only [hib, hstrip, splitSign_neg, if_neg hne, byteDigits_all_digits,
      if_true, natFromDigitBytes_byteDigits]
    have hval : (-(i.natAbs : Int)) = i := by omega
    simp [hval, abs_of_neg hneg]
  · have hib : int_bytes i = byteDigits i.toNat := by
      simp [int_bytes, hneg]
    rw [hib] at hstrip
    have hne := byteDigits_ne_nil i.toNat
    simp only [hib, hstrip, splitSign_of_digits hne byteDigits_mem,
      if_neg hne, byteDigits_all_digits, if_true, natFromDigitBytes_byteDigits]
    have hval : ((i.toNat : Int)) = i := by omega
    simp [hval]

theorem takeFixedAux_pad {w : Nat} : ∀ {m acc : Nat} {rest : List Nat},
    m < 10 ^ w →
    takeFixedAux acc w (padDigits w m ++ rest) = some (acc * 10 ^ w + m, rest) := by
  induction w with
  | zero =>
    intro m acc rest h
    interval_cases m
    simp [padDigits, takeFixedAux]
  | succ w ih =>
    intro m acc rest h
    have hq : m / 10 ^ w < 10 := div_pow10_lt h
    have hd : isDigitByte (48 + m / 10 ^ w) = true := by
      apply isDigitByte_of_bounds
      generalize m / 10 ^ w = q at hq
      omega
    simp only [padDigits, List.cons_append, takeFixedAux, hd, if_true,
      List.append_eq]
    have h48 : acc * 10 + (48 + m / 10 ^ w - 48) = acc * 10 + m / 10 ^ w := by
      generalize m / 10 ^ w = q at hq
      omega
    rw [h48, ih (Nat.mod_lt _ (pow10_pos w))]
    have hdm := Nat.div_add_mod m (10 ^ w)
    congr 2
    calc (acc * 10 + m / 10 ^ w) * 10 ^ w + m % 10 ^ w
        = acc * (10 ^ w * 10) + (10 ^ w * (m / 10 ^ w) + m % 10 ^ w) := by ring
      _ = acc * 10 ^ (w + 1) + m := by rw [hdm]; ring

theorem takeFixed_pad {w m : Nat} {rest : List Nat} (h : m < 10 ^ w) :
    takeFixed w (padDigits w m ++ rest) = some (m, rest) := by
  unfold takeFixed
  rw [takeFixedAux_pad h]
  simp

/-! ## Lemmas: UTF-8 round trip -/

theorem char_toNat_ofNat_of_valid {b : Nat} (h : Nat.isValidChar b) :
    (Char.ofNat b).toNat = b := by
  simp [Char.ofNat, h, Char.toNat, Char.ofNatAux, UInt32.toNat, UInt32.ofNatCore,
    BitVec.toNat_ofNatLt]

theorem utf8EncodeNat_ne_nil (n : Nat) : utf8EncodeNat n ≠ [] := by
  unfold utf8EncodeNat
  split_ifs <;> simp

theorem utf8DecodeOne_encodeNat {n : Nat} (hval : Nat.isValidChar n)
    (bs : List Nat) :
    utf8DecodeOne (utf8EncodeNat n ++ bs) = some (n, bs) := by
  have hlt : n < 0x110000 := by
    rcases hval with h | ⟨ha, hb⟩ <;> omega
  by_cases h1 : n < 0x80
  · simp [utf8EncodeNat, h1, utf8DecodeOne]
  · by_cases h2 : n < 0x800
    · have e1 : ¬(0xC0 + n / 0x40 < 0x80) := by omega
      have e2 : ¬(0xC0 + n / 0x40 < 0xC0) := by omega
      have e3 : 0xC0 + n / 0x40 < 0xE0 := by omega
      have hcont : isCont (0x80 + n % 0x40) = true := by
        simp [isCont]; omega
      have harg : (0xC0 + n / 0x40 - 0xC0) * 0x40 + (0x80 + n % 0x40 - 0x80) = n := by
        omega
      have hge : 0x80 ≤ n := by omega
      simp only [utf8EncodeNat, h1, if_false, h2, if_true, List.cons_append,
        List.nil_append]
      simp only [utf8DecodeOne, if_neg e1, if_neg e2, if_pos e3]
      simp [hcont]
      omega
    · by_cases h3 : n < 0x10000
      · have e1 : ¬(0xE0 + n / 0x1000 < 0x80) := by omega
        have e2 : ¬(0xE0 + n / 0x1000 < 0xC0) := by omega
        have e3 : ¬(0xE0 + n / 0x1000 < 0xE0) := by omega
        have e4 : 0xE0 + n / 0x1000 < 0xF0 := by omega
        have hc1 : isCont (0x80 + n / 0x40 % 0x40) = true := by
          simp [isCont]; omega
        have hc2 : isCont (0x80 + n % 0x40) = true := by
          simp [isCont]; omega
        have harg : (0xE0 + n / 0x1000 - 0xE0) * 0x1000 +
            (0x80 + n / 0x40 % 0x40 - 0x80) * 0x40 + (0x80 + n % 0x40 - 0x80) = n := by
          omega
        have hge : 0x800 ≤ n := by omega
        have hsur : (decide (n < 0xD800) || decide (0xE000 ≤ n)) = true := by
          rcases hval with h | ⟨ha, hb⟩ <;> simp <;> omega
        simp only [utf8EncodeNat, h1, if_false, h2, if_false, h3, if_true,
          List.cons_append, List.nil_append]
        simp only [utf8DecodeOne, if_neg e1, if_neg e2, if_neg e3, if_pos e4]
        simp [hc1, hc2]
        rcases hval with h | ⟨ha, hb⟩ <;> omega
      · have e1 : ¬(0xF0 + n / 0x40000 < 0x80) := by omega
        have e2 : ¬(0xF0 + n / 0x40000 < 0xC0) := by omega
        have e3 : ¬(0xF0 + n / 0x40000 < 0xE0) := by omega
        have e4 : ¬(0xF0 + n / 0x40000 < 0xF0) := by omega
        have e5 : 0xF0 + n / 0x40000 < 0xF8 := by omega
        have hc1 : isCont (0x80 + n / 0x1000 % 0x40) = true := by
          simp [isCont]; omega
        have hc2 : isCont (0x80 + n / 0x40 % 0x40) = true := by
          simp [isCont]; omega
        have hc3 : isCont (0x80 + n % 0x40) = true := by
          simp [isCont]; omega
        have harg : (0xF0 + n / 0x40000 - 0xF0) * 0x40000 +
            (0x80 + n / 0x1000 % 0x40 - 0x80) * 0x1000 +
            (0x80 + n / 0x40 % 0x40 - 0x80) * 0x40 + (0x80 + n % 0x40 - 0x80) = n := by
          omega
        have hge : 0x10000 ≤ n := by omega
        simp only [utf8EncodeNat, h1, if_false, h2, if_false, h3, if_false,
          List.cons_append, List.nil_append]
        simp only [utf8DecodeOne, if_neg e1, if_neg e2, if_neg e3, if_neg e4,
          if_pos e5]
        simp [hc1, hc2, hc3]
        omega

theorem utf8DecodeAux_encode (s : List Char) : ∀ f : Nat,
    (utf8_encode s).length ≤ f → utf8DecodeAux f (utf8_encode s) = some s := by
  induction s with
  | nil => intro f _; cases f <;> rfl
  | cons c s ih =>
    intro f hf
    have henc : utf8_encode (c :: s) = utf8EncodeChar c ++ utf8_encode s := by
      simp [utf8_encode]
    have hone : utf8DecodeOne (utf8EncodeChar c ++ utf8_encode s) =
        some (c.toNat, utf8_encode s) := utf8DecodeOne_encodeNat c.valid _
    have hnn : utf8EncodeChar c ≠ [] := utf8EncodeNat_ne_nil c.toNat
    rw [henc] at hf ⊢
    cases hshape : utf8EncodeChar c ++ utf8_encode s with
    | nil =>
      exact absurd (List.append_eq_nil.mp hshape).1 hnn
    | cons b t =>
      rw [hshape] at hf
      cases f with
      | zero => simp at hf
      | succ f' =>
        have hlen : (utf8_encode s).length ≤ f' := by
          have h1 : 1 ≤ (utf8EncodeChar c).length := by
            cases hc : utf8EncodeChar c with
            | nil => exact absurd hc hnn
            | cons x xs => simp
          have hlc := congrArg List.length hshape
          rw [List.length_append, List.length_cons] at hlc
          rw [List.length_cons] at hf
          omega
        simp only [utf8DecodeAux, ← hshape, hone]
        rw [ih f' hlen]
        simp [Char.ofNat_toNat]

theorem utf8_decode_encode (s : List Char) :
    utf8_decode (utf8_encode s) = some s :=
  utf8DecodeAux_encode s _ le_rfl

theorem utf8DecodeAux_ascii : ∀ (l : List Nat) (f : Nat), l.length ≤ f →
    (∀ b ∈ l, b < 128) → utf8DecodeAux f l = some (l.map Char.ofNat) := by
  intro l
  induction l with
  | nil => intro f _ _; cases f <;> rfl
  | cons b l ih =>
    intro f hf h
    cases f with
    | zero => simp at hf
    | succ f' =>
      have hb : b < 128 := h b (List.mem_cons_self b l)
      have hone : utf8DecodeOne (b :: l) = some (b, l) := by
        simp [utf8DecodeOne, hb]
      simp only [utf8DecodeAux, hone]
      rw [ih f' (by simpa using hf) (fun x hx => h x (List.mem_cons_of_mem b hx))]
      rfl

theorem utf8_decode_ascii {l : List Nat} (h : ∀ b ∈ l, b < 128) :
    utf8_decode l = some (l.map Char.ofNat) :=
  utf8DecodeAux_ascii l _ le_rfl h

/-! ## Lemmas: float repr and parse round trip -/

theorem digitBytes_map_sub (ds : List Nat) : (digitBytes ds).map (· - 48) = ds := by
  unfold digitBytes
  rw [List.map_map]
  have : (fun b => b - 48) ∘ (fun d => 48 + d) = id := by
    funext d
    simp
  rw [this, List.map_id]

theorem digitBytes_mem {ds : List Nat} (h : ∀ d ∈ ds, d ≤ 9) :
    ∀ b ∈ digitBytes ds, 48 ≤ b ∧ b ≤ 57 := by
  intro b hb
  unfold digitBytes at hb
  rw [List.mem_map] at hb
  obtain ⟨d, hd, rfl⟩ := hb
  have := h d hd
  omega

theorem digitBytes_all {ds : List Nat} (h : ∀ d ∈ ds, d ≤ 9) :
    (digitBytes ds).all isDigitByte = true := by
  rw [List.all_eq_true]
  intro b hb
  exact isDigitByte_of_bounds (digitBytes_mem h b hb)

theorem splitFirst_of_not_mem {c : Nat} {l : List Nat} (h : ∀ b ∈ l, b ≠ c) :
    splitFirst c l = (l, none) := by
  induction l with
  | nil => rfl
  | cons b l ih =>
    have hb := h b (List.mem_cons_self b l)
    simp only [splitFirst, if_neg hb, ih (fun x hx => h x (List.mem_cons_of_mem b hx))]

theorem splitFirst_append {c : Nat} {l1 l2 : List Nat} (h : ∀ b ∈ l1, b ≠ c) :
    splitFirst c (l1 ++ c :: l2) = (l1, some l2) := by
  induction l1 with
  | nil => simp [splitFirst]
  | cons b l1 ih =>
    have hb := h b (List.mem_cons_self b l1)
    simp only [List.cons_append, splitFirst, if_neg hb, List.append_eq,
      ih (fun x hx => h x (List.mem_cons_of_mem b hx))]

theorem splitFirstAny_of_not_mem {cs : List Nat} {l : List Nat}
    (h : ∀ b ∈ l, cs.contains b = false) : splitFirstAny cs l = (l, none) := by
  induction l with
  | nil => rfl
  | cons b l ih =>
    have hb := h b (List.mem_cons_self b l)
    simp only [splitFirstAny, hb, Bool.false_eq_true, if_false,
      ih (fun x hx => h x (List.mem_cons_of_mem b hx))]

theorem splitFirstAny_append {cs : List Nat} {l1 l2 : List Nat} {c0 : Nat}
    (h : ∀ b ∈ l1, cs.contains b = false) (hc : cs.contains c0 = true) :
    splitFirstAny cs (l1 ++ c0 :: l2) = (l1, some l2) := by
  induction l1 with
  | nil =>
    have hc' : c0 ∈ cs := by simpa using hc
    simp [splitFirstAny, hc']
  | cons b l1 ih =>
    have hb := h b (List.mem_cons_self b l1)
    simp only [List.cons_append, splitFirstAny, hb, Bool.false_eq_true, if_false,
      List.append_eq, ih (fun x hx => h x (List.mem_cons_of_mem b hx))]

theorem dropWhile_zero_replicate (z : Nat) (l : List Nat) :
    (List.replicate z 0 ++ l).dropWhile (· == 0) = l.dropWhile (· == 0) := by
  induction z with
  | zero => rfl
  | succ z ih => simpa [List.replicate_succ, List.dropWhile_cons] using ih

theorem dropWhile_zero_cons {d : Nat} (l : List Nat) (h : d ≠ 0) :
    (d :: l).dropWhile (· == 0) = d :: l := by
  simp [List.dropWhile_cons, h]

theorem norm_float_spec {digits : List Nat} (neg : Bool) (j z : Nat) (p : Int)
    (hne : digits ≠ []) (hhead : digits.head? ≠ some 0)
    (hlast : digits.getLast? ≠ some 0) :
    norm_float neg (List.replicate j 0 ++ digits ++ List.replicate z 0) p =
      ⟨neg, digits, p - 1 - j⟩ := by
  obtain ⟨d, ds, rfl⟩ : ∃ d ds, digits = d :: ds := by
    cases digits with
    | nil => exact absurd rfl hne
    | cons d ds => exact ⟨d, ds, rfl⟩
  have hd : d ≠ 0 := by
    intro hd0
    exact hhead (by simp [hd0])
  have hsig : (List.replicate j 0 ++ (d :: ds) ++ List.replicate z 0).dropWhile
      (· == 0) = (d :: ds) ++ List.replicate z 0 := by
    rw [List.append_assoc, dropWhile_zero_replicate, List.cons_append,
      dropWhile_zero_cons _ hd]
  have hrev : ((d :: ds) ++ List.replicate z 0).reverse =
      List.replicate z 0 ++ (d :: ds).reverse := by
    rw [List.reverse_append, List.reverse_replicate]
  have hlastrev : ((d :: ds).reverse).dropWhile (· == 0) = (d :: ds).reverse := by
    cases hr : (d :: ds).reverse with
    | nil => simp at hr
    | cons x xs =>
      have hx : x ≠ 0 := by
        intro hx0
        apply hlast
        rw [← List.head?_reverse, hr, hx0]
        rfl
      rw [dropWhile_zero_cons _ hx]
  simp only [norm_float]
  rw [hsig, hrev, dropWhile_zero_replicate, hlastrev, List.reverse_reverse]
  rw [if_neg (by simp : ¬(d :: ds) = [])]
  congr 1
  have hlen : (List.replicate j 0 ++ (d :: ds) ++ List.replicate z 0).length -
      ((d :: ds) ++ List.replicate z 0).length = j := by
    simp
  rw [hlen]

theorem map_toNat_ofNat_ascii {l : List Nat} (h : ∀ b ∈ l, b < 128) :
    (l.map Char.ofNat).map Char.toNat = l := by
  induction l with
  | nil => rfl
  | cons b l ih =>
    have hb : b < 128 := h b (List.mem_cons_self b l)
    have hrec := ih (fun x hx => h x (List.mem_cons_of_mem b hx))
    simp only [List.map_cons, hrec,
      char_toNat_ofNat_of_valid (Or.inl (by omega : b < 0xD800))]

theorem digitBytes_cons (d : Nat) (ds : List Nat) :
    digitBytes (d :: ds) = (48 + d) :: digitBytes ds := rfl

theorem digitBytes_length (ds : List Nat) : (digitBytes ds).length = ds.length := by
  simp [digitBytes]

theorem replicate48_all_digits (z : Nat) :
    (List.replicate z 48).all isDigitByte = true := by
  rw [List.all_eq_true]
  intro b hb
  rw [List.eq_of_mem_replicate hb]
  rfl

theorem contains_eE_false {b : Nat} (h : b ≤ 57) :
    ([101, 69] : List Nat).contains b = false := by
  simp
  omega

theorem parse_py_float_repr {f : PyFloat} (h : f.WF) :
    parse_py_float (py_float_repr f) = some f := by
  obtain ⟨neg, digits, E⟩ := f
  obtain ⟨hd9, hz, hhead, hlast⟩ := h
  cases digits with
  | nil =>
    have hE : E = 0 := hz rfl
    subst hE
    cases neg <;> decide
  | cons d ds' =>
    simp only at hd9 hz hhead hlast
    have hd0 : d ≠ 0 := by
      intro h0
      exact hhead (by simp [h0])
    have hd9' : d ≤ 9 := hd9 d (List.mem_cons_self d ds')
    by_cases hpos : -4 ≤ E ∧ E < 16
    · by_cases hbig : ((d :: ds').length : Int) - 1 ≤ E
      · -- Case A: positional, digits then zeros then ".0"
        have hrepr : py_float_repr ⟨neg, d :: ds', E⟩ =
            (if neg then [45] else []) ++
              (digitBytes (d :: ds') ++
                List.replicate (E - (((d :: ds').length : Int) - 1)).toNat 48 ++ [46, 48]) := by
          simp only [py_float_repr]
          rw [if_pos hpos, if_pos hbig]
        generalize hzdef : (E - (((d :: ds').length : Int) - 1)).toNat = z at hrepr
        have hbmem : ∀ b ∈ digitBytes (d :: ds') ++ List.replicate z 48 ++ [46, 48],
            (48 ≤ b ∧ b ≤ 57) ∨ b = 46 := by
          intro b hb
          simp only [List.mem_append, List.mem_replicate, List.mem_cons,
            List.mem_singleton] at hb
          rcases hb with (hb | ⟨_, rfl⟩) | (rfl | rfl | hfalse)
          · exact Or.inl (digitBytes_mem hd9 b hb)
          · exact Or.inl (by omega)
          · exact Or.inr rfl
          · exact Or.inl (by omega)
          · simp at hfalse
        have hstrip : stripSpaces ((if neg then [45] else []) ++
            (digitBytes (d :: ds') ++ List.replicate z 48 ++ [46, 48])) =
            (if neg then [45] else []) ++
              (digitBytes (d :: ds') ++ List.replicate z 48 ++ [46, 48]) := by
          apply stripSpaces_eq_self
          intro b hb
          rw [List.mem_append] at hb
          rcases hb with hb | hb
          · cases neg <;> simp_all [isSpaceByte]
          · rcases hbmem b hb with hd | rfl
            · exact not_space_of_digit hd
            · rfl
        have hps : splitSign (stripSpaces (py_float_repr ⟨neg, d :: ds', E⟩)) =
            (neg, digitBytes (d :: ds') ++ List.replicate z 48 ++ [46, 48]) := by
          rw [hrepr, hstrip]
          cases neg
          · have hhd : splitSign ((48 + d) ::
                (digitBytes ds' ++ List.replicate z 48 ++ [46, 48])) =
                (false, (48 + d) :: (digitBytes ds' ++ List.replicate z 48 ++ [46, 48])) :=
              splitSign_digit_head _ (by omega) (by omega)
            simp only [Bool.false_eq_true, if_false, List.nil_append,
              digitBytes_cons, List.cons_append, hhd]
          · rw [if_pos rfl, List.singleton_append, splitSign_neg]
        have hnot_e : ∀ b ∈ digitBytes (d :: ds') ++ List.replicate z 48 ++ [46, 48],
            ([101, 69] : List Nat).contains b = false := by
          intro b hb
          rcases hbmem b hb with hd | rfl
          · exact contains_eE_false hd.2
          · exact contains_eE_false (by omega)
        have hsplitAny := splitFirstAny_of_not_mem hnot_e
        have hshape : digitBytes (d :: ds') ++ List.replicate z 48 ++ [46, 48] =
            (digitBytes (d :: ds') ++ List.replicate z 48) ++ 46 :: [48] := by
          simp
        have hsplitDot : splitFirst 46
            (digitBytes (d :: ds') ++ List.replicate z 48 ++ [46, 48]) =
            (digitBytes (d :: ds') ++ List.replicate z 48, some [48]) := by
          rw [hshape]
          apply splitFirst_append
          intro b hb
          rw [List.mem_append] at hb
          rcases hb with hb | hb
          · have := digitBytes_mem hd9 b hb
            omega
          · rw [List.eq_of_mem_replicate hb]
            omega
        have hne_ip : digitBytes (d :: ds') ++ List.replicate z 48 ≠ [] := by
          rw [digitBytes_cons]
          simp
        have hall_ip : (digitBytes (d :: ds') ++ List.replicate z 48).all isDigitByte = true := by
          rw [List.all_append, digitBytes_all hd9, replicate48_all_digits]
          rfl
        have hmap : ((digitBytes (d :: ds') ++ List.replicate z 48) ++ [48]).map (· - 48) =
            List.replicate 0 0 ++ (d :: ds') ++ List.replicate (z + 1) 0 := by
          simp only [List.map_append, digitBytes_map_sub, List.map_replicate,
            List.map_cons, List.map_nil]
          norm_num
          simp [List.replicate_succ']
        have hlen_ip : ((digitBytes (d :: ds') ++ List.replicate z 48).length : Int) =
            ((d :: ds').length : Int) + z := by
          simp [digitBytes_length]
        simp only [parse_py_float, hps, hsplitAny, hsplitDot, Option.getD_some,
          hall_ip, Bool.true_and]
        have hcond : (decide (digitBytes (d :: ds') ++ List.replicate z 48 = []) &&
            decide (([48] : List Nat) = [])) = false := by
          simp
        rw [hcond]
        simp only [Bool.false_eq_true, if_false]
        rw [if_pos (by decide : (([48] : List Nat).all isDigitByte) = true)]
        rw [hmap, norm_float_spec neg 0 (z + 1) _ (List.cons_ne_nil d ds') hhead hlast]
        simp only [Option.some.injEq, PyFloat.mk.injEq, true_and]
        rw [hlen_ip]
        omega
      · by_cases hEnn : 0 ≤ E
        · -- Case B: positional, point inside the digits
          have hcast : (E.toNat : Int) = E := Int.toNat_of_nonneg hEnn
          have hek : E.toNat + 1 < (d :: ds').length := by omega
          have htake : (d :: ds').take (E.toNat + 1) = d :: ds'.take E.toNat :=
            List.take_succ_cons
          have htake9 : ∀ x ∈ (d :: ds').take (E.toNat + 1), x ≤ 9 :=
            fun x hx => hd9 x (List.take_subset _ _ hx)
          have hdrop9 : ∀ x ∈ (d :: ds').drop (E.toNat + 1), x ≤ 9 :=
            fun x hx => hd9 x (List.drop_subset _ _ hx)
          have hrepr : py_float_repr ⟨neg, d :: ds', E⟩ =
              (if neg then [45] else []) ++
                (digitBytes ((d :: ds').take (E.toNat + 1)) ++
                  46 :: digitBytes ((d :: ds').drop (E.toNat + 1))) := by
            simp only [py_float_repr]
            rw [if_pos hpos, if_neg hbig, if_pos hEnn]
          have hbmem : ∀ b ∈ digitBytes ((d :: ds').take (E.toNat + 1)) ++
              46 :: digitBytes ((d :: ds').drop (E.toNat + 1)),
              (48 ≤ b ∧ b ≤ 57) ∨ b = 46 := by
            intro b hb
            simp only [List.mem_append, List.mem_cons] at hb
            rcases hb with hb | (rfl | hb)
            · exact Or.inl (digitBytes_mem htake9 b hb)
            · exact Or.inr rfl
            · exact Or.inl (digitBytes_mem hdrop9 b hb)
          have hstrip : stripSpaces ((if neg then [45] else []) ++
              (digitBytes ((d :: ds').take (E.toNat + 1)) ++
                46 :: digitBytes ((d :: ds').drop (E.toNat + 1)))) =
              (if neg then [45] else []) ++
                (digitBytes ((d :: ds').take (E.toNat + 1)) ++
                  46 :: digitBytes ((d :: ds').drop (E.toNat + 1))) := by
            apply stripSpaces_eq_self
            intro b hb
            rw [List.mem_append] at hb
            rcases hb with hb | hb
            · cases neg <;> simp_all [isSpaceByte]
            · rcases hbmem b hb with hd | rfl
              · exact not_space_of_digit hd
              · rfl
          have hps : splitSign (stripSpaces (py_float_repr ⟨neg, d :: ds', E⟩)) =
              (neg, digitBytes ((d :: ds').take (E.toNat + 1)) ++
                46 :: digitBytes ((d :: ds').drop (E.toNat + 1))) := by
            rw [hrepr, hstrip]
            cases neg
            · have hhd : splitSign ((48 + d) ::
                  (digitBytes (ds'.take E.toNat) ++
                    46 :: digitBytes ((d :: ds').drop (E.toNat + 1)))) =
                  (false, (48 + d) :: (digitBytes (ds'.take E.toNat) ++
                    46 :: digitBytes ((d :: ds').drop (E.toNat + 1)))) :=
                splitSign_digit_head _ (by omega) (by omega)
              simp only [Bool.false_eq_true, if_false, List.nil_append, htake,
                digitBytes_cons, List.cons_append, hhd]
            · rw [if_pos rfl, List.singleton_append, splitSign_neg]
          have hnot_e : ∀ b ∈ digitBytes ((d :: ds').take (E.toNat + 1)) ++
              46 :: digitBytes ((d :: ds').drop (E.toNat + 1)),
              ([101, 69] : List Nat).contains b = false := by
            intro b hb
            rcases hbmem b hb with hd | rfl
            · exact contains_eE_false hd.2
            · exact contains_eE_false (by omega)
          have hsplitAny := splitFirstAny_of_not_mem hnot_e
          have hsplitDot : splitFirst 46
              (digitBytes ((d :: ds').take (E.toNat + 1)) ++
                46 :: digitBytes ((d :: ds').drop (E.toNat + 1))) =
              (digitBytes ((d :: ds').take (E.toNat + 1)),
                some (digitBytes ((d :: ds').drop (E.toNat + 1)))) := by
            apply splitFirst_append
            intro b hb
            have := digitBytes_mem htake9 b hb
            omega
          have hne_ip : digitBytes ((d :: ds').take (E.toNat + 1)) ≠ [] := by
            rw [htake, digitBytes_cons]
            simp
          have hall_ip : (digitBytes ((d :: ds').take (E.toNat + 1))).all isDigitByte = true :=
            digitBytes_all htake9
          have hall_fp : (digitBytes ((d :: ds').drop (E.toNat + 1))).all isDigitByte = true :=
            digitBytes_all hdrop9
          have hmap : (digitBytes ((d :: ds').take (E.toNat + 1)) ++
              digitBytes ((d :: ds').drop (E.toNat + 1))).map (· - 48) =
              List.replicate 0 0 ++ (d :: ds') ++ List.replicate 0 0 := by
            simp only [List.map_append, digitBytes_map_sub, List.take_append_drop]
            simp
          have hlen_ip : ((digitBytes ((d :: ds').take (E.toNat + 1))).length : Int) =
              (E.toNat : Int) + 1 := by
            rw [digitBytes_length, List.length_take]
            omega
          simp only [parse_py_float, hps, hsplitAny, hsplitDot, Option.getD_some,
            hall_ip, hall_fp, Bool.true_and]
          have hcond : (decide (digitBytes ((d :: ds').take (E.toNat + 1)) = []) &&
              decide (digitBytes ((d :: ds').drop (E.toNat + 1)) = [])) = false := by
            rw [htake, digitBytes_cons]
            rw [decide_eq_false
              (by simp : ¬((48 + d) :: digitBytes (ds'.take E.toNat) = ([] : List Nat))),
              Bool.false_and]
          rw [hcond]
          simp only [Bool.false_eq_true, if_false, if_pos rfl]
          rw [hmap, norm_float_spec neg 0 0 _ (List.cons_ne_nil d ds') hhead hlast]
          simp only [if_true, Option.some.injEq, PyFloat.mk.injEq, true_and]
          rw [hlen_ip]
          omega
        · -- Case C: positional, below one: "0." zeros digits
          have hEneg : E < 0 := by omega
          have hrepr : py_float_repr ⟨neg, d :: ds', E⟩ =
              (if neg then [45] else []) ++
                ([48, 46] ++ List.replicate (-E - 1).toNat 48 ++ digitBytes (d :: ds')) := by
            simp only [py_float_repr]
            rw [if_pos hpos, if_neg hbig, if_neg hEnn]
          generalize hzdef : (-E - 1).toNat = z at hrepr
          have hbmem : ∀ b ∈ [48, 46] ++ List.replicate z 48 ++ digitBytes (d :: ds'),
              (48 ≤ b ∧ b ≤ 57) ∨ b = 46 := by
            intro b hb
            simp only [List.mem_append, List.mem_replicate, List.mem_cons,
              List.mem_singleton] at hb
            rcases hb with hb | hb
            · rcases hb with hb | hb
              · rcases hb with rfl | rfl | hnil
                · exact Or.inl (by omega)
                · exact Or.inr rfl
                · simp at hnil
              · obtain ⟨-, rfl⟩ := hb
                exact Or.inl (by omega)
            · exact Or.inl (digitBytes_mem hd9 b hb)
          have hstrip : stripSpaces ((if neg then [45] else []) ++
              ([48, 46] ++ List.replicate z 48 ++ digitBytes (d :: ds'))) =
              (if neg then [45] else []) ++
                ([48, 46] ++ List.replicate z 48 ++ digitBytes (d :: ds')) := by
            apply stripSpaces_eq_self
            intro b hb
            rw [List.mem_append] at hb
            rcases hb with hb | hb
            · cases neg <;> simp_all [isSpaceByte]
            · rcases hbmem b hb with hd | rfl
              · exact not_space_of_digit hd
              · rfl
          have hps : splitSign (stripSpaces (py_float_repr ⟨neg, d :: ds', E⟩)) =
              (neg, [48, 46] ++ List.replicate z 48 ++ digitBytes (d :: ds')) := by
            rw [hrepr, hstrip]
            cases neg
            · have hhd : splitSign (48 :: 46 ::
                  (List.replicate z 48 ++ digitBytes (d :: ds'))) =
                  (false, 48 :: 46 :: (List.replicate z 48 ++ digitBytes (d :: ds'))) :=
                splitSign_digit_head _ (by omega) (by omega)
              simp only [Bool.false_eq_true, if_false, List.nil_append,
                List.cons_append, hhd]
            · rw [if_pos rfl, List.singleton_append, splitSign_neg]
          have hnot_e : ∀ b ∈ [48, 46] ++ List.replicate z 48 ++ digitBytes (d :: ds'),
              ([101, 69] : List Nat).contains b = false := by
            intro b hb
            rcases hbmem b hb with hd | rfl
            · exact contains_eE_false hd.2
            · exact contains_eE_false (by omega)
          have hsplitAny := splitFirstAny_of_not_mem hnot_e
          have hshape : [48, 46] ++ List.replicate z 48 ++ digitBytes (d :: ds') =
              [48] ++ 46 :: (List.replicate z 48 ++ digitBytes (d :: ds')) := by
            simp
          have hsplitDot : splitFirst 46
              ([48, 46] ++ List.replicate z 48 ++ digitBytes (d :: ds')) =
              ([48], some (List.replicate z 48 ++ digitBytes (d :: ds'))) := by
            rw [hshape]
            apply splitFirst_append
            intro b hb
            rw [List.mem_singleton] at hb
            omega
          have hall_fp : (List.replicate z 48 ++ digitBytes (d :: ds')).all isDigitByte = true := by
            rw [List.all_append, replicate48_all_digits, digitBytes_all hd9]
            rfl
          have hmap : (([48] : List Nat) ++ (List.replicate z 48 ++ digitBytes (d :: ds'))).map (· - 48) =
              List.replicate (z + 1) 0 ++ (d :: ds') ++ List.replicate 0 0 := by
            simp only [List.map_append, digitBytes_map_sub, List.map_replicate,
              List.map_cons, List.map_nil, List.singleton_append]
            simp [List.replicate_succ]
          simp only [parse_py_float, hps, hsplitAny, hsplitDot, Option.getD_some,
            hall_fp, Bool.and_true]
          have hcond : (decide (([48] : List Nat) = []) &&
              decide (List.replicate z 48 ++ digitBytes (d :: ds') = [])) = false := by
            rw [decide_eq_false (by simp : ¬(([48] : List Nat) = [])), Bool.false_and]
          rw [hcond]
          simp only [Bool.false_eq_true, if_false]
          rw [if_pos (by decide : (([48] : List Nat).all isDigitByte) = true)]
          rw [hmap, norm_float_spec neg (z + 1) 0 _ (List.cons_ne_nil d ds') hhead hlast]
          simp only [Option.some.injEq, PyFloat.mk.injEq, true_and,
            List.length_cons, List.length_nil]
          omega
    · -- Case D: scientific notation
      have hds9 : ∀ x ∈ ds', x ≤ 9 := fun x hx => hd9 x (List.mem_cons_of_mem d hx)
      have hED_mem : ∀ b ∈ (if E.natAbs < 10 then [48, 48 + E.natAbs]
          else byteDigits E.natAbs), 48 ≤ b ∧ b ≤ 57 := by
        by_cases ha : E.natAbs < 10
        · rw [if_pos ha]
          intro b hb
          simp only [List.mem_cons, List.mem_singleton, List.not_mem_nil,
            or_false] at hb
          rcases hb with rfl | rfl <;> omega
        · rw [if_neg ha]
          exact byteDigits_mem
      have hED_ne : (if E.natAbs < 10 then [48, 48 + E.natAbs]
          else byteDigits E.natAbs) ≠ [] := by
        by_cases ha : E.natAbs < 10
        · simp [ha]
        · rw [if_neg ha]
          exact byteDigits_ne_nil _
      have hED_val : natFromDigitBytes (if E.natAbs < 10 then [48, 48 + E.natAbs]
          else byteDigits E.natAbs) = E.natAbs := by
        by_cases ha : E.natAbs < 10
        · rw [if_pos ha]
          simp [natFromDigitBytes]
        · rw [if_neg ha]
          exact natFromDigitBytes_byteDigits _
      have hED_all : (if E.natAbs < 10 then [48, 48 + E.natAbs]
          else byteDigits E.natAbs).all isDigitByte = true := by
        rw [List.all_eq_true]
        intro b hb
        exact isDigitByte_of_bounds (hED_mem b hb)
      have hM_mem : ∀ b ∈ [48 + d] ++ (if ds' = [] then [] else 46 :: digitBytes ds'),
          (48 ≤ b ∧ b ≤ 57) ∨ b = 46 := by
        intro b hb
        rw [List.mem_append] at hb
        rcases hb with hb | hb
        · rw [List.mem_singleton] at hb
          subst hb
          exact Or.inl (by omega)
        · by_cases hds : ds' = []
          · rw [if_pos hds] at hb
            simp at hb
          · rw [if_neg hds, List.mem_cons] at hb
            rcases hb with rfl | hb
            · exact Or.inr rfl
            · exact Or.inl (digitBytes_mem hds9 b hb)
      have hrepr : py_float_repr ⟨neg, d :: ds', E⟩ =
          (if neg then [45] else []) ++
            (([48 + d] ++ (if ds' = [] then [] else 46 :: digitBytes ds')) ++
              101 :: ((if E < 0 then [45] else [43]) ++
                (if E.natAbs < 10 then [48, 48 + E.natAbs] else byteDigits E.natAbs))) := by
        simp only [py_float_repr]
        rw [if_neg hpos]
        simp [List.append_assoc]
      have hallmem : ∀ b ∈ ([48 + d] ++ (if ds' = [] then [] else 46 :: digitBytes ds')) ++
          101 :: ((if E < 0 then [45] else [43]) ++
            (if E.natAbs < 10 then [48, 48 + E.natAbs] else byteDigits E.natAbs)),
          (48 ≤ b ∧ b ≤ 57) ∨ b = 46 ∨ b = 101 ∨ b = 45 ∨ b = 43 := by
        intro b hb
        rw [List.mem_append] at hb
        rcases hb with hb | hb
        · rcases hM_mem b hb with hd | rfl
          · exact Or.inl hd
          · exact Or.inr (Or.inl rfl)
        · rw [List.mem_cons] at hb
          rcases hb with rfl | hb
          · exact Or.inr (Or.inr (Or.inl rfl))
          · rw [List.mem_append] at hb
            rcases hb with hb | hb
            · by_cases hE0 : E < 0
              · rw [if_pos hE0, List.mem_singleton] at hb
                exact Or.inr (Or.inr (Or.inr (Or.inl hb)))
              · rw [if_neg hE0, List.mem_singleton] at hb
                exact Or.inr (Or.inr (Or.inr (Or.inr hb)))
            · exact Or.inl (hED_mem b hb)
      have hstrip : stripSpaces ((if neg then [45] else []) ++
          (([48 + d] ++ (if ds' = [] then [] else 46 :: digitBytes ds')) ++
            101 :: ((if E < 0 then [45] else [43]) ++
              (if E.natAbs < 10 then [48, 48 + E.natAbs] else byteDigits E.natAbs)))) =
          (if neg then [45] else []) ++
            (([48 + d] ++ (if ds' = [] then [] else 46 :: digitBytes ds')) ++
              101 :: ((if E < 0 then [45] else [43]) ++
                (if E.natAbs < 10 then [48, 48 + E.natAbs] else byteDigits E.natAbs))) := by
        apply stripSpaces_eq_self
        intro b hb
        rw [List.mem_append] at hb
        rcases hb with hb | hb
        · cases neg <;> simp_all [isSpaceByte]
        · rcases hallmem b hb with hd | rfl | rfl | rfl | rfl
          · exact not_space_of_digit hd
          · rfl
          · rfl
          · rfl
          · rfl
      have hps : splitSign (stripSpaces (py_float_repr ⟨neg, d :: ds', E⟩)) =
          (neg, ([48 + d] ++ (if ds' = [] then [] else 46 :: digitBytes ds')) ++
            101 :: ((if E < 0 then [45] else [43]) ++
              (if E.natAbs < 10 then [48, 48 + E.natAbs] else byteDigits E.natAbs))) := by
        rw [hrepr, hstrip]
        cases neg
        · have hhd : splitSign ((48 + d) ::
              ((if ds' = [] then [] else 46 :: digitBytes ds') ++
                101 :: ((if E < 0 then [45] else [43]) ++
                  (if E.natAbs < 10 then [48, 48 + E.natAbs] else byteDigits E.natAbs)))) =
              (false, (48 + d) ::
                ((if ds' = [] then [] else 46 :: digitBytes ds') ++
                  101 :: ((if E < 0 then [45] else [43]) ++
                    (if E.natAbs < 10 then [48, 48 + E.natAbs] else byteDigits E.natAbs)))) :=
            splitSign_digit_head _ (by omega) (by omega)
          simp only [Bool.false_eq_true, if_false, List.nil_append,
            List.singleton_append, List.cons_append, hhd]
        · rw [if_pos rfl, List.singleton_append, splitSign_neg]
      have hsplitAny : splitFirstAny [101, 69]
          (([48 + d] ++ (if ds' = [] then [] else 46 :: digitBytes ds')) ++
            101 :: ((if E < 0 then [45] else [43]) ++
              (if E.natAbs < 10 then [48, 48 + E.natAbs] else byteDigits E.natAbs))) =
          ([48 + d] ++ (if ds' = [] then [] else 46 :: digitBytes ds'),
            some ((if E < 0 then [45] else [43]) ++
              (if E.natAbs < 10 then [48, 48 + E.natAbs] else byteDigits E.natAbs))) := by
        apply splitFirstAny_append
        · intro b hb
          rcases hM_mem b hb with hd | rfl
          · exact contains_eE_false hd.2
          · exact contains_eE_false (by omega)
        · decide
      have hq : splitSign ((if E < 0 then [45] else [43]) ++
          (if E.natAbs < 10 then [48, 48 + E.natAbs] else byteDigits E.natAbs)) =
          (decide (E < 0), (if E.natAbs < 10 then [48, 48 + E.natAbs]
            else byteDigits E.natAbs)) := by
        by_cases hE0 : E < 0
        · rw [if_pos hE0, List.singleton_append, splitSign_neg]
          simp [hE0]
        · rw [if_neg hE0, List.singleton_append, splitSign_pos]
          simp [hE0]
      have hev : (if decide (E < 0) = true then
          -((natFromDigitBytes (if E.natAbs < 10 then [48, 48 + E.natAbs]
            else byteDigits E.natAbs) : Nat) : Int)
          else ((natFromDigitBytes (if E.natAbs < 10 then [48, 48 + E.natAbs]
            else byteDigits E.natAbs) : Nat) : Int)) = E := by
        rw [hED_val]
        by_cases hE0 : E < 0
        · rw [if_pos (decide_eq_true hE0)]
          omega
        · rw [if_neg (by simp [decide_eq_false hE0])]
          omega
      by_cases hds : ds' = []
      · subst hds
        have hsplitAny2 : splitFirstAny [101, 69] ([48 + d] ++ [] ++
            101 :: ((if E < 0 then [45] else [43]) ++
              (if E.natAbs < 10 then [48, 48 + E.natAbs] else byteDigits E.natAbs))) =
            ([48 + d] ++ [], some ((if E < 0 then [45] else [43]) ++
              (if E.natAbs < 10 then [48, 48 + E.natAbs] else byteDigits E.natAbs))) := by
          apply splitFirstAny_append
          · intro b hb
            simp only [List.append_nil, List.mem_singleton] at hb
            subst hb
            exact contains_eE_false (by omega)
          · decide
        have hsplitDot2 : splitFirst 46 ([48 + d] ++ []) = ([48 + d] ++ [], none) := by
          apply splitFirst_of_not_mem
          intro b hb
          simp only [List.append_nil, List.mem_singleton] at hb
          omega
        have hall_ip2 : ([48 + d] ++ ([] : List Nat)).all isDigitByte = true := by
          simp [isDigitByte]
          omega
        have hmap2 : ((([48 + d] ++ ([] : List Nat)) ++ ([] : List Nat))).map (· - 48) =
            List.replicate 0 0 ++ (d :: []) ++ List.replicate 0 0 := by
          simp
        have hne2 : ¬(([48 + d] ++ ([] : List Nat)) = [] ∧ ([] : List Nat) = []) := by
          simp
        simp only [parse_py_float, hps, hsplitAny2, hq, if_neg hED_ne, hED_all,
          if_true, hev, hsplitDot2, Option.getD_none, hall_ip2, List.all_nil,
          Bool.and_true, Bool.true_and]
        rw [if_neg (by simp :
          ¬((decide ([48 + d] ++ ([] : List Nat) = []) && decide True) = true))]
        rw [hmap2, norm_float_spec neg 0 0 _ (List.cons_ne_nil d []) hhead hlast]
        simp only [Option.some.injEq, PyFloat.mk.injEq, true_and, List.append_nil,
          List.length_cons, List.length_nil]
        omega
      · have hsplitAny3 : splitFirstAny [101, 69]
            (([48 + d] ++ 46 :: digitBytes ds') ++
              101 :: ((if E < 0 then [45] else [43]) ++
                (if E.natAbs < 10 then [48, 48 + E.natAbs] else byteDigits E.natAbs))) =
            ([48 + d] ++ 46 :: digitBytes ds',
              some ((if E < 0 then [45] else [43]) ++
                (if E.natAbs < 10 then [48, 48 + E.natAbs] else byteDigits E.natAbs))) := by
          apply splitFirstAny_append
          · intro b hb
            simp only [List.singleton_append, List.mem_cons] at hb
            rcases hb with rfl | rfl | hb
            · exact contains_eE_false (by omega)
            · exact contains_eE_false (by omega)
            · exact contains_eE_false (digitBytes_mem hds9 b hb).2
          · decide
        have hsplitDot3 : splitFirst 46 ([48 + d] ++ 46 :: digitBytes ds') =
            ([48 + d], some (digitBytes ds')) := by
          apply splitFirst_append
          intro b hb
          rw [List.mem_singleton] at hb
          omega
        have hall_ip3 : (([48 + d] : List Nat)).all isDigitByte = true := by
          simp [isDigitByte]
          omega
        have hall_fp3 : (digitBytes ds').all isDigitByte = true := digitBytes_all hds9
        have hmap3 : (([48 + d] ++ digitBytes ds')).map (· - 48) =
            List.replicate 0 0 ++ (d :: ds') ++ List.replicate 0 0 := by
          simp only [List.map_append, List.map_cons, List.map_nil, digitBytes_map_sub,
            List.singleton_append]
          simp
        simp only [parse_py_float, hps, if_neg hds, hsplitAny3, hq, if_neg hED_ne,
          hED_all, if_true, hev, hsplitDot3, Option.getD_some, hall_ip3, hall_fp3,
          Bool.and_true, Bool.true_and]
        rw [if_neg (by simp :
          ¬((decide (([48 + d] : List Nat) = []) && decide (digitBytes ds' = [])) = true))]
        rw [hmap3, norm_float_spec neg 0 0 _ (List.cons_ne_nil d ds') hhead hlast]
        simp only [Option.some.injEq, PyFloat.mk.injEq, true_and, List.length_cons,
          List.length_nil]
        omega

/-! ## Lemmas: isoformat round trip -/

theorem expectByte_cons (c : Nat) (l : List Nat) : expectByte c (c :: l) = some l := by
  simp [expectByte]

theorem takeFixed_pad_nil {w m : Nat} (h : m < 10 ^ w) :
    takeFixed w (padDigits w m) = some (m, []) := by
  have := @takeFixed_pad w m [] h
  rwa [List.append_nil] at this

theorem parse_iso_offset_bytes {o : Int} (ho : o.natAbs ≤ 1439) :
    parse_iso_offset (iso_offset_bytes o) = some (o, []) := by
  have hdiv : o.natAbs / 60 < 10 ^ 2 := by omega
  have hmod : o.natAbs % 60 < 10 ^ 2 := by omega
  have hh23 : o.natAbs / 60 ≤ 23 := by omega
  have hm59 : o.natAbs % 60 ≤ 59 := by omega
  have hoff : iso_offset_bytes o = (if o < 0 then [45] else [43]) ++
      (padDigits 2 (o.natAbs / 60) ++ 58 :: padDigits 2 (o.natAbs % 60)) := by
    simp only [iso_offset_bytes, List.append_assoc, List.cons_append]
  by_cases ho0 : o < 0
  · rw [hoff, if_pos ho0, List.singleton_append, parse_iso_offset]
    simp only [takeFixed_pad hdiv, takeFixed_pad_nil hmod, expectByte_cons,
      Option.some_bind, Option.bind_some, Option.bind_eq_bind]
    rw [if_pos (And.intro hh23 hm59)]
    simp only [if_true, Option.some.injEq, Prod.mk.injEq, and_true]
    omega
  · rw [hoff, if_neg ho0, List.singleton_append, parse_iso_offset]
    simp only [takeFixed_pad hdiv, takeFixed_pad_nil hmod, expectByte_cons,
      Option.some_bind, Option.bind_some, Option.bind_eq_bind]
    rw [if_pos (And.intro hh23 hm59)]
    simp only [Bool.false_eq_true, if_false, Option.some.injEq, Prod.mk.injEq,
      and_true]
    omega

theorem iso_offset_bytes_shape (o : Int) :
    ∃ b r, iso_offset_bytes o = b :: r ∧ b ≠ 46 := by
  by_cases ho0 : o < 0
  · refine ⟨45, padDigits 2 (o.natAbs / 60) ++ 58 :: padDigits 2 (o.natAbs % 60),
      ?_, by omega⟩
    simp [iso_offset_bytes, ho0, List.singleton_append, List.append_assoc,
      List.cons_append]
  · refine ⟨43, padDigits 2 (o.natAbs / 60) ++ 58 :: padDigits 2 (o.natAbs % 60),
      ?_, by omega⟩
    simp [iso_offset_bytes, ho0, List.singleton_append, List.append_assoc,
      List.cons_append]

theorem parse_iso_main_bytes {y mo d h mi s : Nat} (rest : List Nat)
    (hy : y < 10 ^ 4) (hmo : mo < 10 ^ 2) (hd : d < 10 ^ 2) (hh : h < 10 ^ 2)
    (hmi : mi < 10 ^ 2) (hs : s < 10 ^ 2) :
    parse_iso_main (padDigits 4 y ++ 45 :: (padDigits 2 mo ++ 45 ::
      (padDigits 2 d ++ 84 :: (padDigits 2 h ++ 58 :: (padDigits 2 mi ++ 58 ::
        (padDigits 2 s ++ rest)))))) = some (y, mo, d, h, mi, s, rest) := by
  rw [parse_iso_main]
  simp only [takeFixed_pad hy, takeFixed_pad hmo, takeFixed_pad hd,
    takeFixed_pad hh, takeFixed_pad hmi, takeFixed_pad hs, expectByte_cons,
    Option.some_bind, Option.bind_some, Option.bind_eq_bind, Option.pure_def]

theorem parse_iso_frac_zero_nil : parse_iso_frac [] = some (0, []) := rfl

theorem parse_iso_frac_zero_cons {b : Nat} (r : List Nat) (hb : b ≠ 46) :
    parse_iso_frac (b :: r) = some (0, b :: r) := by
  simp [parse_iso_frac, hb]

theorem parse_iso_frac_pad {us : Nat} (rest : List Nat) (h : us < 10 ^ 6) :
    parse_iso_frac (46 :: (padDigits 6 us ++ rest)) = some (us, rest) := by
  simp [parse_iso_frac, takeFixed_pad h]

theorem parse_iso_tz_nil : parse_iso_tz [] = some (none, []) := rfl

theorem parse_iso_tz_bytes {o : Int} (ho : o.natAbs ≤ 1439) :
    parse_iso_tz (iso_offset_bytes o) = some (some o, []) := by
  obtain ⟨b, r, hbr, _⟩ := iso_offset_bytes_shape o
  rw [hbr, parse_iso_tz, ← hbr, parse_iso_offset_bytes ho]
  rfl

theorem parse_isoformat_isoformat {t : Datetime} (h : t.Valid) :
    parse_isoformat (isoformat t) = some t := by
  obtain ⟨y, mo, dd, hh, mi, ss, us, off⟩ := t
  obtain ⟨h1, h2, h3, h4, h5, h6, h7, h8, h9, h10, h11⟩ := h
  simp only at h1 h2 h3 h4 h5 h6 h7 h8 h9 h10 h11
  have hy : y < 10 ^ 4 := by omega
  have hmo : mo < 10 ^ 2 := by omega
  have hdd : dd < 10 ^ 2 := by
    have : days_in_month y mo ≤ 31 := by
      unfold days_in_month
      split_ifs <;> omega
    omega
  have hhh : hh < 10 ^ 2 := by omega
  have hmi : mi < 10 ^ 2 := by omega
  have hss : ss < 10 ^ 2 := by omega
  have hus : us < 10 ^ 6 := by omega
  have hvalid : Datetime.Valid ⟨y, mo, dd, hh, mi, ss, us, off⟩ :=
    ⟨h1, h2, h3, h4, h5, h6, h7, h8, h9, h10, h11⟩
  cases off with
  | none =>
    have hiso : isoformat ⟨y, mo, dd, hh, mi, ss, us, none⟩ =
        padDigits 4 y ++ 45 :: (padDigits 2 mo ++ 45 :: (padDigits 2 dd ++
          84 :: (padDigits 2 hh ++ 58 :: (padDigits 2 mi ++ 58 ::
            (padDigits 2 ss ++
              ((if us = 0 then [] else 46 :: padDigits 6 us) ++ [])))))) := by
      simp only [isoformat, List.append_assoc, List.cons_append]
    have hfrac : parse_iso_frac
        ((if us = 0 then [] else 46 :: padDigits 6 us) ++ []) =
        some (us, []) := by
      by_cases hus0 : us = 0
      · subst hus0
        rw [if_pos rfl, List.nil_append]
        exact parse_iso_frac_zero_nil
      · rw [if_neg hus0, List.cons_append, List.append_nil,
          ← List.append_nil (padDigits 6 us)]
        exact parse_iso_frac_pad _ hus
    rw [parse_isoformat, hiso, parse_iso_main_bytes _ hy hmo hdd hhh hmi hss]
    simp only [Option.some_bind, Option.bind_some, Option.bind_eq_bind, hfrac,
      parse_iso_tz_nil]
    simp [hvalid]
  | some o =>
    have ho : o.natAbs ≤ 1439 := by simpa using h11
    have hiso : isoformat ⟨y, mo, dd, hh, mi, ss, us, some o⟩ =
        padDigits 4 y ++ 45 :: (padDigits 2 mo ++ 45 :: (padDigits 2 dd ++
          84 :: (padDigits 2 hh ++ 58 :: (padDigits 2 mi ++ 58 ::
            (padDigits 2 ss ++
              ((if us = 0 then [] else 46 :: padDigits 6 us) ++
                iso_offset_bytes o)))))) := by
      simp only [isoformat, List.append_assoc, List.cons_append]
    have hfrac : parse_iso_frac
        ((if us = 0 then [] else 46 :: padDigits 6 us) ++ iso_offset_bytes o) =
        some (us, iso_offset_bytes o) := by
      by_cases hus0 : us = 0
      · subst hus0
        rw [if_pos rfl, List.nil_append]
        obtain ⟨b, r, hbr, hbne⟩ := iso_offset_bytes_shape o
        rw [hbr]
        exact parse_iso_frac_zero_cons r hbne
      · rw [if_neg hus0, List.cons_append]
        exact parse_iso_frac_pad _ hus
    rw [parse_isoformat, hiso, parse_iso_main_bytes _ hy hmo hdd hhh hmi hss]
    simp only [Option.some_bind, Option.bind_some, Option.bind_eq_bind, hfrac,
      parse_iso_tz_bytes ho]
    simp [hvalid]

/-! ## Lemmas: decode_line dispatch -/

theorem splitBang_no_bang {k : List Char} (h : '!' ∉ k) : splitBang k = (k, none) := by
  induction k with
  | nil => rfl
  | cons c k ih =>
    have hc : c ≠ '!' := fun hc => h (hc ▸ List.mem_cons_self c k)
    simp only [splitBang, if_neg hc, ih (fun hm => h (List.mem_cons_of_mem c hm))]

theorem splitBang_append {k a : List Char} (h : '!' ∉ k) :
    splitBang (k ++ '!' :: a) = (k, some a) := by
  induction k with
  | nil => simp [splitBang]
  | cons c k ih =>
    have hc : c ≠ '!' := fun hc => h (hc ▸ List.mem_cons_self c k)
    simp only [List.cons_append, splitBang, if_neg hc, List.append_eq,
      ih (fun hm => h (List.mem_cons_of_mem c hm))]

theorem find_decoder_none {tbl : DecTable} {a : List Char}
    (h : ∀ p ∈ tbl, a ∉ p.1) : find_decoder tbl a = none := by
  unfold find_decoder
  rw [List.find?_eq_none.mpr]
  · rfl
  · intro p hp
    simpa using h p hp

theorem decode_line_replicate_ok {decs : Option DecTable} {df : Option Fallback}
    {rest : List InItem} {outs : List OutItem} {r : List InItem}
    (hw : decode_line decs df rest = .ok outs r) (n : Nat) :
    decode_line decs df (List.replicate n .pending ++ rest) =
      .ok (List.replicate n OutItem.pending ++ outs) r := by
  induction n with
  | zero => simpa using hw
  | succ n ih =>
    rw [List.replicate_succ, List.cons_append]
    show (decode_line decs df (List.replicate n .pending ++ rest)).push .pending = _
    rw [ih]
    simp [DLRes.push, List.replicate_succ]

theorem decode_line_replicate_eof {decs : Option DecTable} {df : Option Fallback}
    {rest : List InItem} {outs : List OutItem}
    (hw : decode_line decs df rest = .eof outs) (n : Nat) :
    decode_line decs df (List.replicate n .pending ++ rest) =
      .eof (List.replicate n OutItem.pending ++ outs) := by
  induction n with
  | zero => simpa using hw
  | succ n ih =>
    rw [List.replicate_succ, List.cons_append]
    show (decode_line decs df (List.replicate n .pending ++ rest)).push .pending = _
    rw [ih]
    simp [DLRes.push, List.replicate_succ]

/-! ## Claim C1 -/

/-- C1: the claim that `decode_block(stream, decoders, d)` decodes with the
same fallback `d` that `decode_line` would use fails on the code: line 249
calls `decode_line(stream, decoders)` without forwarding `default`, so for a
line with the unknown annotation `Q`, `decode_block` with a null fallback
raises `DecodingError('Q')` while `decode_line` with the same null fallback
yields `('x', ('Q', b'v'))`.  The quantifier over `d` shows the fallback
argument is ignored entirely. -/
theorem C1_decode_block_drops_fallback :
    (∀ d : Option Fallback,
      decode_block (some DECODERS) d [.kv ("x!Q".toList) [118]] =
        ([], some (.DecodingError "Q".toList))) ∧
    decode_line (some DECODERS) none [.kv ("x!Q".toList) [118]] =
      .ok [.kv "x".toList (.tuple (some "Q".toList) (.bytes [118]))] [] :=
  ⟨fun _ => rfl, rfl⟩

/-! ## Claim C2 -/

/-- C2 counterexample: a stream holding a key/value line after the blank-line
terminator.  `decode_block` forwards the terminator and then keeps decoding:
it also yields `('x', b'1')`, so the block sequence does not end at the
terminator when more lines follow. -/
theorem C2_counterexample :
    decode_block (some DECODERS) (some raise_decoding_error)
      [.term, .kv "x".toList [49]] =
      ([.term, .kv "x".toList (.bytes [49])], none) := rfl

/-- C2 amended: after forwarding the terminator record once, `decode_block`
goes on decoding the remaining stream (first conjunct); the block sequence
ends right after the terminator exactly when nothing follows it, the
swallowed end-of-stream then terminating the sequence cleanly (second
conjunct). -/
theorem C2_terminator_then_continue :
    (∀ (decs : Option DecTable) (d : Option Fallback) (rest : List InItem),
      decode_block decs d (.term :: rest) =
        (.term :: (decode_block decs d rest).1, (decode_block decs d rest).2)) ∧
    (∀ (decs : Option DecTable) (d : Option Fallback),
      decode_block decs d [.term] = ([.term], none)) :=
  ⟨fun _ _ _ => rfl, fun _ _ => rfl⟩

/-! ## Claim C5 -/

/-- C5: with the decode table disabled (`decoders=None`), an annotated line
decodes to `(key, (annotation, raw))` for every fallback whatsoever, the
raising one included: the disabled-table branch at line 133 returns before
the fallback is ever consulted, so no `DecodingError` can arise. -/
theorem C5_disabled_table (d : Option Fallback) (k a : List Char) (v : Bytes)
    (hk : '!' ∉ k) :
    decode_line none d [.kv (k ++ '!' :: a) v] =
      .ok [.kv k (.tuple (some a) (.bytes v))] [] := by
  simp only [decode_line, splitBang_append hk]

/-- C5 witness: the disabled-table result on `x!I: b'1'` under the raising
fallback. -/
theorem C5_disabled_table_witness :
    ('!' ∉ "x".toList) ∧
    decode_line none (some raise_decoding_error)
      [.kv ("x".toList ++ '!' :: "I".toList) [49]] =
      .ok [.kv "x".toList (.tuple (some "I".toList) (.bytes [49]))] [] :=
  ⟨by decide, C5_disabled_table (some raise_decoding_error) _ _ _ (by decide)⟩

/-! ## Claim C6 -/

/-- C6: a stream of `n` "not ready" markers followed by one line whose
single-line decode yields one record `r` makes `decode_line` yield exactly
the `n` pending markers, in order and before the record, then the record,
and stop with the stream fully consumed. -/
theorem C6_pending_forwarding (decs : Option DecTable) (d : Option Fallback)
    (n : Nat) (line : InItem) (r : OutItem)
    (h : decode_line decs d [line] = .ok [r] []) :
    decode_line decs d (List.replicate n .pending ++ [line]) =
      .ok (List.replicate n OutItem.pending ++ [r]) [] :=
  decode_line_replicate_ok h n

/-- C6 witness: two pendings before `('x', b'1')`. -/
theorem C6_pending_forwarding_witness :
    decode_line (some DECODERS) (some raise_decoding_error)
      [.kv "x".toList [49]] = .ok [.kv "x".toList (.bytes [49])] [] ∧
    decode_line (some DECODERS) (some raise_decoding_error)
      (List.replicate 2 .pending ++ [.kv "x".toList [49]]) =
      .ok (List.replicate 2 OutItem.pending ++ [.kv "x".toList (.bytes [49])]) [] :=
  ⟨by decide, C6_pending_forwarding (some DECODERS) (some raise_decoding_error)
    2 (.kv "x".toList [49]) (.kv "x".toList (.bytes [49])) (by decide)⟩

/-! ## Claim C7 -/

/-- C7: a stream exhausted after only "not ready" markers (or nothing at
all) makes `decode_line` raise the end-of-stream condition — the dedicated
`eof` outcome, a different constructor from any raised exception `err` —
while `decode_block` on the same stream swallows it: the pendings are
forwarded and the block result carries no error. -/
theorem C7_exhaustion (decs : Option DecTable) (d : Option Fallback) (n : Nat) :
    decode_line decs d (List.replicate n .pending) =
      .eof (List.replicate n OutItem.pending) ∧
    decode_block decs d (List.replicate n .pending) =
      (List.replicate n OutItem.pending, none) := by
  have h1 : ∀ df : Option Fallback,
      decode_line decs df (List.replicate n .pending) =
        .eof (List.replicate n OutItem.pending) := by
    intro df
    have := @decode_line_replicate_eof decs df [] [] rfl n
    simpa using this
  refine ⟨h1 d, ?_⟩
  unfold decode_block
  rw [List.length_replicate]
  simp only [decode_block_aux, h1 (some raise_decoding_error)]

/-! ## Claim C4 -/

/-- C4: for an annotated line whose annotation sits in no synonym set of the
decode table, the fallback alone decides the outcome: the default raising
fallback raises `DecodingError` naming the annotation; the null fallback
yields `(key, (annotation, raw))`; any other fallback `f` yields
`(key, f annotation raw)` whenever `f` returns. -/
theorem C4_unknown_annot_fallback (tbl : DecTable) (k a : List Char) (v : Bytes)
    (hk : '!' ∉ k) (ha : ∀ p ∈ tbl, a ∉ p.1) :
    decode_line (some tbl) (some raise_decoding_error) [.kv (k ++ '!' :: a) v] =
      .err [] (.DecodingError a) ∧
    decode_line (some tbl) none [.kv (k ++ '!' :: a) v] =
      .ok [.kv k (.tuple (some a) (.bytes v))] [] ∧
    (∀ (f : Fallback) (r : PyVal), f a v = .ok r →
      decode_line (some tbl) (some f) [.kv (k ++ '!' :: a) v] = .ok [.kv k r] []) := by
  have hfd := find_decoder_none ha
  refine ⟨?_, ?_, ?_⟩
  · simp only [decode_line, splitBang_append hk, hfd, raise_decoding_error]
  · simp only [decode_line, splitBang_append hk, hfd]
  · intro f r hf
    simp only [decode_line, splitBang_append hk, hfd, hf]

/-- C4 witness: the three outcomes at the unknown annotation `Q` over the
built-in table. -/
theorem C4_unknown_annot_fallback_witness :
    ('!' ∉ "x".toList) ∧ (∀ p ∈ DECODERS, "Q".toList ∉ p.1) ∧
    decode_line (some DECODERS) none [.kv ("x".toList ++ '!' :: "Q".toList) [118]] =
      .ok [.kv "x".toList (.tuple (some "Q".toList) (.bytes [118]))] [] :=
  ⟨by decide, by decide,
    (C4_unknown_annot_fallback DECODERS _ _ _ (by decide) (by decide)).2.1⟩

/-! ## Claim C3 -/

theorem padDigits_lt128 {w m : Nat} (h : m < 10 ^ w) : ∀ b ∈ padDigits w m, b < 128 :=
  fun b hb => by
    have := padDigits_mem h b hb
    omega

theorem iso_offset_bytes_lt {o : Int} (ho : o.natAbs ≤ 1439) :
    ∀ b ∈ iso_offset_bytes o, b < 128 := by
  intro b hb
  have hdiv : o.natAbs / 60 < 10 ^ 2 := by omega
  have hmod : o.natAbs % 60 < 10 ^ 2 := by omega
  unfold iso_offset_bytes at hb
  simp only [List.mem_append, List.mem_cons] at hb
  rcases hb with (hb | hb) | (rfl | hb)
  · split_ifs at hb <;> rw [List.mem_singleton] at hb <;> omega
  · exact padDigits_lt128 hdiv b hb
  · omega
  · exact padDigits_lt128 hmod b hb

theorem isoformat_lt128 {t : Datetime} (h : t.Valid) : ∀ b ∈ isoformat t, b < 128 := by
  obtain ⟨y, mo, dd, hh, mi, ss, us, off⟩ := t
  obtain ⟨h1, h2, h3, h4, h5, h6, h7, h8, h9, h10, h11⟩ := h
  simp only at h1 h2 h3 h4 h5 h6 h7 h8 h9 h10 h11
  have hy : y < 10 ^ 4 := by omega
  have hmo : mo < 10 ^ 2 := by omega
  have hdd : dd < 10 ^ 2 := by
    have : days_in_month y mo ≤ 31 := by
      unfold days_in_month
      split_ifs <;> omega
    omega
  have hhh : hh < 10 ^ 2 := by omega
  have hmi : mi < 10 ^ 2 := by omega
  have hss : ss < 10 ^ 2 := by omega
  have hus : us < 10 ^ 6 := by omega
  intro b hb
  unfold isoformat at hb
  simp only [List.mem_append, List.mem_cons] at hb
  rcases hb with ((((((hb | (rfl | hb)) | (rfl | hb)) | (rfl | hb)) | (rfl | hb)) |
      (rfl | hb)) | hb) | hb
  · exact padDigits_lt128 hy b hb
  · omega
  · exact padDigits_lt128 hmo b hb
  · omega
  · exact padDigits_lt128 hdd b hb
  · omega
  · exact padDigits_lt128 hhh b hb
  · omega
  · exact padDigits_lt128 hmi b hb
  · omega
  · exact padDigits_lt128 hss b hb
  · by_cases hus0 : us = 0
    · rw [if_pos hus0] at hb
      simp at hb
    · rw [if_neg hus0, List.mem_cons] at hb
      rcases hb with rfl | hb
      · omega
      · exact padDigits_lt128 hus b hb
  · cases off with
    | none => simp at hb
    | some o =>
      have ho : o.natAbs ≤ 1439 := by simpa using h11
      exact iso_offset_bytes_lt ho b hb

/-- C3: round trip with the default tables.  For every key without `!` and
every value that is an integer, a finite well-formed float, a Unicode or
ASCII string (Python strings infer the `U` annotation either way), or a
valid timestamp (offset and fractional seconds optional), encoding the
record and decoding the resulting single line returns the record
unchanged. -/
theorem C3_roundtrip (k : List Char) (v : PyVal) (hk : '!' ∉ k) (hv : RTVal v) :
    ∃ k2 b, encode_line (.kv k v) (some ENCODERS) ensure_encoded (some TYPES) =
        .ok (.kv k2 (.bytes b)) ∧
      decode_line (some DECODERS) (some raise_decoding_error) [.kv k2 b] =
        .ok [.kv k v] [] := by
  cases hv with
  | int n =>
    refine ⟨k ++ '!' :: "I".toList, int_bytes n, rfl, ?_⟩
    have hfd : find_decoder DECODERS ("I".toList) = some dec_Int := rfl
    simp only [decode_line, splitBang_append hk, hfd, dec_Int,
      parse_py_int_int_bytes n]
  | float f hwf =>
    refine ⟨k ++ '!' :: "F".toList, py_float_repr f, rfl, ?_⟩
    have hfd : find_decoder DECODERS ("F".toList) = some dec_Float := rfl
    simp only [decode_line, splitBang_append hk, hfd, dec_Float,
      parse_py_float_repr hwf]
  | str s =>
    refine ⟨k ++ '!' :: "U".toList, utf8_encode s, rfl, ?_⟩
    have hfd : find_decoder DECODERS ("U".toList) = some dec_Unicode := rfl
    simp only [decode_line, splitBang_append hk, hfd, dec_Unicode,
      utf8_decode_encode]
  | time t hval =>
    refine ⟨k ++ '!' :: "T".toList, isoformat t, rfl, ?_⟩
    have hfd : find_decoder DECODERS ("T".toList) = some dec_Time := rfl
    have hascii := isoformat_lt128 hval
    simp only [decode_line, splitBang_append hk, hfd, dec_Time,
      utf8_decode_ascii hascii, map_toNat_ofNat_ascii hascii,
      parse_isoformat_isoformat hval]

/-- C3 witness: the multi-byte Unicode string `"π"` under key `x` round
trips through `x!U`. -/
theorem C3_roundtrip_witness :
    ('!' ∉ "x".toList) ∧
    (∃ k2 b, encode_line (.kv "x".toList (.str ['π'])) (some ENCODERS)
        ensure_encoded (some TYPES) = .ok (.kv k2 (.bytes b)) ∧
      decode_line (some DECODERS) (some raise_decoding_error) [.kv k2 b] =
        .ok [.kv "x".toList (.str ['π'])] []) :=
  ⟨by decide, C3_roundtrip "x".toList (.str ['π']) (by decide) (RTVal.str _)⟩

/-! ## Claim C8 -/

/-- C8: an explicit `("F", v)` annotation bypasses type inference — the
result is the same for every inference table `tys` — and applies the Float
encoder to `v` alone: whenever `float(v)` succeeds with `f`, the record
encodes to `(k + "!F", str(f).encode())` regardless of `v`'s runtime
type. -/
theorem C8_explicit_float_override (k : List Char) (v : PyVal) (f : PyFloat)
    (tys : Option TypeTable) (hf : py_float_of v = .ok f) :
    encode_line (.kv k (.tuple (some "F".toList) v)) (some ENCODERS)
      ensure_encoded tys =
      .ok (.kv (k ++ '!' :: "F".toList) (.bytes (py_float_repr f))) := by
  have henc : apply_encoder ENCODERS (some ("F".toList)) v =
      .ok (.bytes (py_float_repr f)) := by
    unfold apply_encoder
    have hfind : ENCODERS.find? (fun p =>
        match some ("F".toList) with
        | some a => p.1.contains a
        | none => false) = some (["Float".toList, "F".toList], enc_Float) := rfl
    rw [hfind]
    simp only [enc_Float, hf]
  simp only [encode_line, normalize_value, encode_tagged, converted_value,
    Option.getD_some, henc, ensure_encoded, PyVal.isBytes, if_true]

/-- C8 witness: the integer `1` under explicit annotation `F` encodes to
`('x!F', b'1.0')`. -/
theorem C8_explicit_float_override_witness :
    py_float_of (.int 1) = .ok ⟨false, [1], 0⟩ ∧
    encode_line (.kv "x".toList (.tuple (some "F".toList) (.int 1)))
      (some ENCODERS) ensure_encoded (some TYPES) =
      .ok (.kv "x!F".toList (.bytes [49, 46, 48])) := by
  constructor
  · rfl
  · have := C8_explicit_float_override "x".toList (.int 1) ⟨false, [1], 0⟩
      (some TYPES) rfl
    rw [this]
    rfl

/-! ## Claim C9 -/

theorem encode_line_eq (E : EncTable) (T : TypeTable) (D : EncDefault)
    (k : List Char) (v0 : PyVal) :
    encode_line (.kv k v0) (some E) D (some T) =
      (match (converted_of E T v0).2 with
        | .error e => .error e
        | .ok value2 =>
          match D (converted_of E T v0).1 value2 with
          | .error e => .error e
          | .ok value3 =>
            match ensure_encoded (converted_of E T v0).1 value3 with
            | .error e => .error e
            | .ok _ =>
              .ok (.kv (match (converted_of E T v0).1 with
                | some a => k ++ '!' :: a
                | none => k) value3)) := rfl

theorem enc_Int_error_kind {v : PyVal} {e : PyErr} (h : enc_Int v = .error e) :
    e = .ValueError ∨ e = .TypeError := by
  cases v with
  | int i => simp [enc_Int, py_int_of] at h
  | float f => simp [enc_Int, py_int_of] at h
  | str s =>
    cases hp : parse_py_int (s.map Char.toNat) with
    | some i =>
      simp only [enc_Int, py_int_of, hp] at h
      exact Except.noConfusion h
    | none =>
      simp only [enc_Int, py_int_of, hp] at h
      injection h with h
      exact Or.inl h.symm
  | bytes b =>
    cases hp : parse_py_int b with
    | some i =>
      simp only [enc_Int, py_int_of, hp] at h
      exact Except.noConfusion h
    | none =>
      simp only [enc_Int, py_int_of, hp] at h
      injection h with h
      exact Or.inl h.symm
  | time t =>
    simp only [enc_Int, py_int_of] at h
    injection h with h
    exact Or.inr h.symm
  | tuple a v =>
    simp only [enc_Int, py_int_of] at h
    injection h with h
    exact Or.inr h.symm

theorem enc_Float_error_kind {v : PyVal} {e : PyErr} (h : enc_Float v = .error e) :
    e = .ValueError ∨ e = .TypeError := by
  cases v with
  | int i => simp [enc_Float, py_float_of] at h
  | float f => simp [enc_Float, py_float_of] at h
  | str s =>
    cases hp : parse_py_float (s.map Char.toNat) with
    | some f =>
      simp only [enc_Float, py_float_of, hp] at h
      exact Except.noConfusion h
    | none =>
      simp only [enc_Float, py_float_of, hp] at h
      injection h with h
      exact Or.inl h.symm
  | bytes b =>
    cases hp : parse_py_float b with
    | some f =>
      simp only [enc_Float, py_float_of, hp] at h
      exact Except.noConfusion h
    | none =>
      simp only [enc_Float, py_float_of, hp] at h
      injection h with h
      exact Or.inl h.symm
  | time t =>
    simp only [enc_Float, py_float_of] at h
    injection h with h
    exact Or.inr h.symm
  | tuple a v =>
    simp only [enc_Float, py_float_of] at h
    injection h with h
    exact Or.inr h.symm

theorem enc_Unicode_error_kind {v : PyVal} {e : PyErr}
    (h : enc_Unicode v = .error e) : e = .AttributeError := by
  cases v with
  | str s =>
    simp only [enc_Unicode] at h
    exact Except.noConfusion h
  | bytes b => simp only [enc_Unicode] at h; injection h with h; exact h.symm
  | int i => simp only [enc_Unicode] at h; injection h with h; exact h.symm
  | float f => simp only [enc_Unicode] at h; injection h with h; exact h.symm
  | time t => simp only [enc_Unicode] at h; injection h with h; exact h.symm
  | tuple a v => simp only [enc_Unicode] at h; injection h with h; exact h.symm

theorem enc_ASCII_error_kind {v : PyVal} {e : PyErr}
    (h : enc_ASCII v = .error e) : e = .UnicodeError ∨ e = .AttributeError := by
  cases v with
  | str s =>
    by_cases hall : s.all (·.toNat < 128) = true
    · simp [enc_ASCII, hall] at h
    · rw [enc_ASCII] at h
      rw [if_neg hall] at h
      injection h with h
      exact Or.inl h.symm
  | bytes b =>
    simp only [enc_ASCII] at h
    injection h with h
    exact Or.inr h.symm
  | int i =>
    simp only [enc_ASCII] at h
    injection h with h
    exact Or.inr h.symm
  | float f =>
    simp only [enc_ASCII] at h
    injection h with h
    exact Or.inr h.symm
  | time t =>
    simp only [enc_ASCII] at h
    injection h with h
    exact Or.inr h.symm
  | tuple a v =>
    simp only [enc_ASCII] at h
    injection h with h
    exact Or.inr h.symm

theorem enc_Time_error_kind {v : PyVal} {e : PyErr}
    (h : enc_Time v = .error e) : e = .AttributeError := by
  cases v with
  | time t =>
    simp only [enc_Time] at h
    exact Except.noConfusion h
  | bytes b => simp only [enc_Time] at h; injection h with h; exact h.symm
  | int i => simp only [enc_Time] at h; injection h with h; exact h.symm
  | float f => simp only [enc_Time] at h; injection h with h; exact h.symm
  | str s => simp only [enc_Time] at h; injection h with h; exact h.symm
  | tuple a v => simp only [enc_Time] at h; injection h with h; exact h.symm

theorem apply_encoder_not_encoding_error {a : Option (List Char)} {v : PyVal}
    {e : PyErr} (h : apply_encoder ENCODERS a v = .error e) :
    e ≠ .EncodingError := by
  unfold apply_encoder at h
  cases hf : ENCODERS.find? (fun p =>
      match a with
      | some x => p.1.contains x
      | none => false) with
  | none => rw [hf] at h; exact absurd h (by simp)
  | some p =>
    rw [hf] at h
    have hp := List.mem_of_find?_eq_some hf
    simp only [ENCODERS, List.mem_cons, List.not_mem_nil, or_false] at hp
    rcases hp with rfl | rfl | rfl | rfl | rfl
    · rcases enc_Int_error_kind h with rfl | rfl <;> decide
    · rcases enc_Float_error_kind h with rfl | rfl <;> decide
    · rw [enc_Unicode_error_kind h]; decide
    · rcases enc_ASCII_error_kind h with rfl | rfl <;> decide
    · rw [enc_Time_error_kind h]; decide

theorem converted_of_snd_eq (E : EncTable) (T : TypeTable) (v0 : PyVal) :
    (converted_of E T v0).2 =
      apply_encoder E (converted_of E T v0).1 (normalize_value v0).2 := rfl

theorem encode_line_kv (k : List Char) (v0 : PyVal) (encs : Option EncTable)
    (D : EncDefault) (tys : Option TypeTable) :
    encode_line (.kv k v0) encs D tys =
      encode_tagged (encs.getD []) (tys.getD []) D k
        (normalize_value v0).1 (normalize_value v0).2 := rfl

theorem ensure_encoded_ok {a : Option (List Char)} {v : PyVal}
    (h : v.isBytes = true) : ensure_encoded a v = .ok v := by
  simp [ensure_encoded, h]

theorem ensure_encoded_err {a : Option (List Char)} {v : PyVal}
    (h : v.isBytes = false) : ensure_encoded a v = .error .EncodingError := by
  simp [ensure_encoded, h]

theorem ensure_encoded_ok_isBytes {a : Option (List Char)} {v w : PyVal}
    (h : ensure_encoded a v = .ok w) : v.isBytes = true := by
  cases hb : v.isBytes with
  | true => rfl
  | false => rw [ensure_encoded_err hb] at h; exact Except.noConfusion h

theorem encode_tagged_ok_inv {E : EncTable} {T : TypeTable} {D : EncDefault}
    {k : List Char} {a0 : Option (List Char)} {v : PyVal} {out : EncOut}
    (h : encode_tagged E T D k a0 v = .ok out) :
    ∃ pv, pv.isBytes = true ∧
      out = .kv (match (converted_value E T a0 v).1 with
        | some a => k ++ '!' :: a
        | none => k) pv := by
  simp only [encode_tagged] at h
  cases hc : (converted_value E T a0 v).2 with
  | error e => rw [hc] at h; exact Except.noConfusion h
  | ok w =>
    simp only [hc] at h
    cases hD : D (converted_value E T a0 v).1 w with
    | error e => rw [hD] at h; exact Except.noConfusion h
    | ok w3 =>
      simp only [hD] at h
      cases hg : ensure_encoded (converted_value E T a0 v).1 w3 with
      | error e => rw [hg] at h; exact Except.noConfusion h
      | ok w4 =>
        simp only [hg] at h
        injection h with h
        exact ⟨w3, ensure_encoded_ok_isBytes hg, h.symm⟩

/-- C9: with the default handler, `encode_line` fails with
`EncodingError` exactly when the table-converted value is not bytes
(no matching encoder, or an encoder returning non-bytes); any default
handler returning non-bytes also trips the final unconditional
byte-ness guard; and every successful record payload is bytes. -/
theorem C9_encoding_error_guard (k : List Char) (v0 : PyVal) :
    (encode_line (.kv k v0) (some ENCODERS) ensure_encoded (some TYPES) =
        .error .EncodingError ↔
      ∃ w, (converted_of ENCODERS TYPES v0).2 = .ok w ∧ w.isBytes = false) ∧
    (∀ (D : EncDefault) (w w2 : PyVal),
      (converted_of ENCODERS TYPES v0).2 = .ok w →
      D (converted_of ENCODERS TYPES v0).1 w = .ok w2 →
      w2.isBytes = false →
      encode_line (.kv k v0) (some ENCODERS) D (some TYPES) =
        .error .EncodingError) ∧
    (∀ (D : EncDefault) (out : EncOut),
      encode_line (.kv k v0) (some ENCODERS) D (some TYPES) = .ok out →
      ∃ k2 pv, out = .kv k2 pv ∧ pv.isBytes = true) := by
  refine ⟨?_, ?_, ?_⟩
  · cases hc : (converted_of ENCODERS TYPES v0).2 with
    | error e =>
      have hne : e ≠ .EncodingError :=
        apply_encoder_not_encoding_error
          ((converted_of_snd_eq ENCODERS TYPES v0).symm.trans hc)
      rw [encode_line_eq]
      simp only [hc]
      constructor
      · intro h
        injection h with h
        exact absurd h hne
      · rintro ⟨w, hw, -⟩
        exact Except.noConfusion hw
    | ok w =>
      rw [encode_line_eq]
      cases hb : w.isBytes with
      | true =>
        simp only [hc, ensure_encoded_ok hb]
        constructor
        · intro h
          exact Except.noConfusion h
        · rintro ⟨w2, hw2, hb2⟩
          injection hw2 with hw2
          subst hw2
          rw [hb] at hb2
          exact Bool.noConfusion hb2
      | false =>
        simp only [hc, ensure_encoded_err hb]
        constructor
        · intro _
          exact ⟨w, rfl, hb⟩
        · intro _
          trivial
  · intro D w w2 hc hD hb2
    rw [encode_line_eq]
    simp only [hc, hD, ensure_encoded_err hb2]
  · intro D out h
    rw [encode_line_kv] at h
    obtain ⟨pv, hb, hout⟩ := encode_tagged_ok_inv h
    exact ⟨_, pv, hout, hb⟩

/-- C9 witness: an unmatched annot leaves `int 5` unconverted and
raises `EncodingError`; a custom default returning a str trips the
final guard the same way. -/
theorem C9_encoding_error_guard_witness :
    encode_line (.kv "x".toList (.tuple (some "Q".toList) (.int 5)))
        (some ENCODERS) ensure_encoded (some TYPES) =
      .error .EncodingError ∧
    encode_line (.kv "x".toList (.int 7)) (some ENCODERS)
        (fun _ _ => .ok (.str "no".toList)) (some TYPES) =
      .error .EncodingError := by
  constructor
  · exact (C9_encoding_error_guard "x".toList
      (.tuple (some "Q".toList) (.int 5))).1.mpr ⟨.int 5, rfl, rfl⟩
  · exact (C9_encoding_error_guard "x".toList (.int 7)).2.1
      (fun _ _ => .ok (.str "no".toList)) (.bytes [55])
      (.str "no".toList) rfl rfl rfl

/-- C10: a 2-tuple value is always read as an explicit
`(annot, value)` pair: the record is encoded from the second
component alone, a set first component skips inference entirely (the
types table is never consulted), an unset one resolves by inference,
and a set annot is suffixed onto the key of every successful
record. -/
theorem C10_tuple_explicit_pair (k : List Char) (a : Option (List Char))
    (v : PyVal) (encs : Option EncTable) (D : EncDefault)
    (tys : Option TypeTable) :
    (encode_line (.kv k (.tuple a v)) encs D tys =
        encode_tagged (encs.getD []) (tys.getD []) D k a v) ∧
    (∀ s, converted_value (encs.getD []) (tys.getD []) (some s) v =
        (some s, apply_encoder (encs.getD []) (some s) v)) ∧
    (converted_value (encs.getD []) (tys.getD []) none v =
        (infer_annot (tys.getD []) v,
          apply_encoder (encs.getD []) (infer_annot (tys.getD []) v) v)) ∧
    (∀ s out, encode_line (.kv k (.tuple (some s) v)) encs D tys = .ok out →
        ∃ pv, out = .kv (k ++ '!' :: s) pv) := by
  refine ⟨rfl, fun s => rfl, rfl, ?_⟩
  intro s out h
  rw [encode_line_kv] at h
  obtain ⟨pv, hb, hout⟩ := encode_tagged_ok_inv h
  exact ⟨pv, hout⟩

/-- C10 witness: `('x', ('F', b'1'))` encodes from the bytes alone to
`('x!F', b'1.0')`, with the annot suffixed onto the key. -/
theorem C10_tuple_explicit_pair_witness :
    encode_line (.kv "x".toList (.tuple (some "F".toList) (.bytes [49])))
        (some ENCODERS) ensure_encoded (some TYPES) =
      .ok (.kv "x!F".toList (.bytes [49, 46, 48])) ∧
    ∃ pv, EncOut.kv "x!F".toList (.bytes [49, 46, 48]) =
      .kv ("x".toList ++ '!' :: "F".toList) pv := by
  constructor
  · rfl
  · exact (C10_tuple_explicit_pair "x".toList (some "F".toList) (.bytes [49])
      (some ENCODERS) ensure_encoded (some TYPES)).2.2.2 "F".toList
      (.kv "x!F".toList (.bytes [49, 46, 48])) rfl
